import Mathlib

/-!
Verification development for the `certificates_data_entry_tools` scripts
(`insert_programs.py`, `insert_schedules.py`, `insert_participants.py`).

Strings are modelled as `List Char` restricted to the ASCII fragment that the
data of this tool lives in (the month tables, keyword tables and statuses are
all ASCII).  Python's `str.split()`, `str.strip()`, `str.lower()`,
`str.replace`, `in` (substring test) and the `datetime.strptime`/`strftime`
round trip for the fixed format `"%d %B %Y"` are embedded as executable
functions below; each embedding carries a comment recording the CPython
behaviour it mirrors.
-/

set_option maxRecDepth 8000

namespace CertTools

/-! ### Character classes (ASCII fragment of Python's semantics) -/

/-- Python whitespace for `str.split()` / `\s` (ASCII part):
space, tab, newline, carriage return, vertical tab, form feed. -/
def isPyWS (c : Char) : Bool :=
  c.toNat = 32 || c.toNat = 9 || c.toNat = 10 || c.toNat = 13 ||
  c.toNat = 11 || c.toNat = 12

/-- ASCII decimal digit, as matched by `strptime`'s `\d` on ASCII input. -/
def isDigitC (c : Char) : Bool := 48 ≤ c.toNat && c.toNat ≤ 57

/-- ASCII upper-case letter. -/
def isUpperC (c : Char) : Bool := 65 ≤ c.toNat && c.toNat ≤ 90

/-- ASCII lower-case letter. -/
def isLowerC (c : Char) : Bool := 97 ≤ c.toNat && c.toNat ≤ 122

/-- ASCII letter. -/
def isAlphaC (c : Char) : Bool := isUpperC c || isLowerC c

/-- ASCII word character for the regex `\b` boundary (`\w`): letter, digit
or underscore. -/
def isWordC (c : Char) : Bool := isAlphaC c || isDigitC c || c.toNat = 95

/-- `str.lower()` on one character (ASCII fragment; identical to the body of
core `Char.toLower`). -/
def pyLower (c : Char) : Char :=
  if 65 ≤ c.toNat ∧ c.toNat ≤ 90 then Char.ofNat (c.toNat + 32) else c

/-- `str.upper()` on one character (ASCII fragment). -/
def pyUpper (c : Char) : Char :=
  if 97 ≤ c.toNat ∧ c.toNat ≤ 122 then Char.ofNat (c.toNat - 32) else c

theorem char_eq_iff_toNat {a b : Char} : a = b ↔ a.toNat = b.toNat := by
  constructor
  · intro h; rw [h]
  · intro h
    apply Char.ext
    apply UInt32.toNat.inj h

theorem toNat_ofNat_valid {n : Nat} (h : n.isValidChar) :
    (Char.ofNat n).toNat = n := by
  simp only [Char.ofNat, dif_pos h]
  rfl

theorem pyLower_toNat (c : Char) :
    (pyLower c).toNat = if 65 ≤ c.toNat ∧ c.toNat ≤ 90 then c.toNat + 32 else c.toNat := by
  unfold pyLower
  by_cases h : 65 ≤ c.toNat ∧ c.toNat ≤ 90
  · rw [if_pos h, if_pos h]
    apply toNat_ofNat_valid
    left
    omega
  · rw [if_neg h, if_neg h]

theorem pyUpper_toNat (c : Char) :
    (pyUpper c).toNat = if 97 ≤ c.toNat ∧ c.toNat ≤ 122 then c.toNat - 32 else c.toNat := by
  unfold pyUpper
  by_cases h : 97 ≤ c.toNat ∧ c.toNat ≤ 122
  · rw [if_pos h, if_pos h]
    apply toNat_ofNat_valid
    left
    omega
  · rw [if_neg h, if_neg h]

theorem isPyWS_pyLower (c : Char) : isPyWS (pyLower c) = isPyWS c := by
  simp only [isPyWS, pyLower_toNat]
  split_ifs with h
  · rw [Bool.eq_iff_iff]
    simp only [Bool.or_eq_true, decide_eq_true_eq]
    omega
  · rfl

theorem isDigitC_pyLower (c : Char) : isDigitC (pyLower c) = isDigitC c := by
  simp only [isDigitC, pyLower_toNat]
  split_ifs with h
  · rw [Bool.eq_iff_iff]
    simp only [Bool.and_eq_true, decide_eq_true_eq]
    omega
  · rfl

theorem pyLower_pyLower (c : Char) : pyLower (pyLower c) = pyLower c := by
  simp only [char_eq_iff_toNat, pyLower_toNat]
  split_ifs <;> omega

theorem pyLower_pyUpper (c : Char) : pyLower (pyUpper c) = pyLower c := by
  simp only [char_eq_iff_toNat, pyLower_toNat, pyUpper_toNat]
  split_ifs <;> omega

theorem isDigitC_not_isPyWS {c : Char} (h : isDigitC c = true) : isPyWS c = false := by
  simp only [isDigitC, Bool.and_eq_true, decide_eq_true_eq] at h
  simp only [isPyWS, Bool.or_eq_false_iff, decide_eq_false_iff_not]
  omega

theorem isAlphaC_not_isPyWS {c : Char} (h : isAlphaC c = true) : isPyWS c = false := by
  simp only [isAlphaC, isUpperC, isLowerC, Bool.or_eq_true, Bool.and_eq_true,
    decide_eq_true_eq] at h
  simp only [isPyWS, Bool.or_eq_false_iff, decide_eq_false_iff_not]
  omega

theorem isAlphaC_not_isDigitC {c : Char} (h : isAlphaC c = true) : isDigitC c = false := by
  simp only [isAlphaC, isUpperC, isLowerC, Bool.or_eq_true, Bool.and_eq_true,
    decide_eq_true_eq] at h
  simp only [isDigitC, Bool.and_eq_false_iff, decide_eq_false_iff_not]
  omega

/-! ### `str.split()` (whitespace split, dropping empty fields)

CPython's `str.split()` with no argument splits on runs of whitespace and
never returns empty fields.  The definition uses explicit fuel so that it is
structurally recursive (hence kernel-reducible); `pySplitF_fuel` shows the
fuel is irrelevant once it dominates the length of the input. -/

/-- Non-whitespace predicate used for token extraction. -/
def notWS (c : Char) : Bool := !isPyWS c

def pySplitF : Nat → List Char → List (List Char)
  | 0, _ => []
  | _ + 1, [] => []
  | fuel + 1, c :: rest =>
    if isPyWS c then pySplitF fuel rest
    else (c :: rest.takeWhile notWS) :: pySplitF fuel (rest.dropWhile notWS)

/-- `str.split()` on a list of characters. -/
def pySplit (l : List Char) : List (List Char) := pySplitF l.length l

theorem length_dropWhile_le (p : Char → Bool) (l : List Char) :
    (l.dropWhile p).length ≤ l.length :=
  (List.dropWhile_suffix p).length_le

theorem pySplitF_fuel : ∀ (f₁ f₂ : Nat) (l : List Char),
    l.length ≤ f₁ → l.length ≤ f₂ → pySplitF f₁ l = pySplitF f₂ l := by
  intro f₁
  induction f₁ with
  | zero =>
    intro f₂ l h1 _
    have : l = [] := List.eq_nil_of_length_eq_zero (Nat.le_zero.mp h1)
    subst this
    cases f₂ <;> rfl
  | succ f ih =>
    intro f₂ l h1 h2
    cases l with
    | nil => cases f₂ <;> rfl
    | cons c rest =>
      simp only [List.length_cons] at h1 h2
      cases f₂ with
      | zero => omega
      | succ f' =>
        simp only [pySplitF]
        by_cases hc : isPyWS c = true
        · rw [if_pos hc, if_pos hc]
          exact ih f' rest (by omega) (by omega)
        · rw [if_neg hc, if_neg hc]
          have hd := length_dropWhile_le notWS rest
          rw [ih f' (rest.dropWhile notWS) (by omega) (by omega)]

theorem pySplit_nil : pySplit [] = [] := rfl

theorem pySplit_cons_ws {c : Char} {rest : List Char} (h : isPyWS c = true) :
    pySplit (c :: rest) = pySplit rest := by
  show pySplitF (rest.length + 1) (c :: rest) = pySplit rest
  simp only [pySplitF, h, if_true]
  rfl

theorem pySplit_cons_tok {c : Char} {rest : List Char} (h : isPyWS c = false) :
    pySplit (c :: rest) =
      (c :: rest.takeWhile notWS) :: pySplit (rest.dropWhile notWS) := by
  show pySplitF (rest.length + 1) (c :: rest) = _
  simp only [pySplitF, h, if_false]
  rw [pySplitF_fuel rest.length (rest.dropWhile notWS).length (rest.dropWhile notWS)
    (length_dropWhile_le notWS rest) le_rfl]
  rfl

theorem pySplit_tok_props_aux : ∀ (n : Nat) (l : List Char), l.length ≤ n →
    ∀ t ∈ pySplit l, t ≠ [] ∧ (∀ c ∈ t, isPyWS c = false) ∧ t <:+: l := by
  intro n
  induction n with
  | zero =>
    intro l hl t ht
    have : l = [] := List.eq_nil_of_length_eq_zero (Nat.le_zero.mp hl)
    subst this
    simp [pySplit_nil] at ht
  | succ n ih =>
    intro l hl t ht
    cases l with
    | nil => simp [pySplit_nil] at ht
    | cons c rest =>
      simp only [List.length_cons] at hl
      by_cases hc : isPyWS c = true
      · rw [pySplit_cons_ws hc] at ht
        obtain ⟨h1, h2, h3⟩ := ih rest (by omega) t ht
        exact ⟨h1, h2, h3.trans (List.infix_cons_iff.mpr (Or.inr List.infix_rfl))⟩
      · rw [pySplit_cons_tok (Bool.not_eq_true _ ▸ hc)] at ht
        rcases List.mem_cons.mp ht with rfl | ht'
        · refine ⟨by simp, ?_, ?_⟩
          · intro x hx
            rcases List.mem_cons.mp hx with rfl | hx'
            · simpa using hc
            · have := List.mem_takeWhile_imp hx'
              simpa [notWS] using this
          · have hpre : c :: rest.takeWhile notWS <+: c :: rest := by
              refine ⟨rest.dropWhile notWS, ?_⟩
              simp [List.takeWhile_append_dropWhile]
            exact hpre.isInfix
        · have hd := length_dropWhile_le notWS rest
          obtain ⟨h1, h2, h3⟩ := ih (rest.dropWhile notWS) (by omega) t ht'
          refine ⟨h1, h2, ?_⟩
          exact h3.trans ((List.dropWhile_suffix notWS).isInfix.trans
            (List.infix_cons_iff.mpr (Or.inr List.infix_rfl)))

/-- Every token produced by `pySplit` is nonempty, whitespace-free, and a
contiguous part of the input. -/
theorem pySplit_tok_props (l : List Char) :
    ∀ t ∈ pySplit l, t ≠ [] ∧ (∀ c ∈ t, isPyWS c = false) ∧ t <:+: l :=
  pySplit_tok_props_aux l.length l le_rfl

theorem takeWhile_append_of_all {p : Char → Bool} :
    ∀ {t rest : List Char}, (∀ c ∈ t, p c = true) →
      (t ++ rest).takeWhile p = t ++ rest.takeWhile p := by
  intro t
  induction t with
  | nil => intro rest _; simp
  | cons c t' ih =>
    intro rest h
    have hc : p c = true := h c (by simp)
    simp only [List.cons_append, List.takeWhile_cons_of_pos hc]
    rw [ih (fun x hx => h x (by simp [hx]))]

theorem dropWhile_append_of_all {p : Char → Bool} :
    ∀ {t rest : List Char}, (∀ c ∈ t, p c = true) →
      (t ++ rest).dropWhile p = rest.dropWhile p := by
  intro t
  induction t with
  | nil => intro rest _; simp
  | cons c t' ih =>
    intro t h
    have hc : p c = true := h c (by simp)
    simp only [List.cons_append, List.dropWhile_cons_of_pos hc]
    exact ih (fun x hx => h x (by simp [hx]))

/-- `true` iff the list is empty or starts with whitespace — the shape of what
remains after a token. -/
def headBlank : List Char → Bool
  | [] => true
  | c :: _ => isPyWS c

def headIsWS : List Char → Bool
  | [] => false
  | c :: _ => isPyWS c

def lastIsWS (l : List Char) : Bool := headIsWS l.reverse

theorem takeWhile_notWS_of_headBlank {rest : List Char} (h : headBlank rest = true) :
    rest.takeWhile notWS = [] := by
  cases rest with
  | nil => rfl
  | cons c r =>
    simp only [headBlank] at h
    simp [List.takeWhile_cons, notWS, h]

theorem dropWhile_notWS_of_headBlank {rest : List Char} (h : headBlank rest = true) :
    rest.dropWhile notWS = rest := by
  cases rest with
  | nil => rfl
  | cons c r =>
    simp only [headBlank] at h
    simp [List.dropWhile_cons, notWS, h]

/-- Splitting a leading whitespace run away. -/
theorem pySplit_ws_append : ∀ {w l : List Char}, (∀ c ∈ w, isPyWS c = true) →
    pySplit (w ++ l) = pySplit l := by
  intro w
  induction w with
  | nil => intro l _; rfl
  | cons c w' ih =>
    intro l h
    rw [List.cons_append, pySplit_cons_ws (h c (by simp))]
    exact ih (fun x hx => h x (by simp [hx]))

/-- Splitting a leading token away. -/
theorem pySplit_tok_append {t rest : List Char} (ht : t ≠ [])
    (htw : ∀ c ∈ t, isPyWS c = false) (hrest : headBlank rest = true) :
    pySplit (t ++ rest) = t :: pySplit rest := by
  cases t with
  | nil => exact absurd rfl ht
  | cons c t' =>
    have hc : isPyWS c = false := htw c (by simp)
    rw [List.cons_append, pySplit_cons_tok hc]
    have ht' : ∀ x ∈ t', notWS x = true := by
      intro x hx
      simp [notWS, htw x (by simp [hx])]
    rw [takeWhile_append_of_all ht', takeWhile_notWS_of_headBlank hrest,
      dropWhile_append_of_all ht', dropWhile_notWS_of_headBlank hrest]
    simp

/-! ### `str.strip()` and `str.lower()` on lists of characters -/

/-- `str.strip()` (ASCII whitespace fragment). -/
def stripL (l : List Char) : List Char :=
  ((l.dropWhile isPyWS).reverse.dropWhile isPyWS).reverse

/-- `str.lower()`. -/
def lowerL (l : List Char) : List Char := l.map pyLower

theorem dropWhile_eq_self_of_head {l : List Char} (h : headIsWS l = false) :
    l.dropWhile isPyWS = l := by
  cases l with
  | nil => rfl
  | cons c r =>
    simp only [headIsWS] at h
    simp [List.dropWhile_cons, h]

theorem stripL_eq_self {l : List Char} (h1 : headIsWS l = false)
    (h2 : lastIsWS l = false) : stripL l = l := by
  unfold stripL
  rw [dropWhile_eq_self_of_head h1, dropWhile_eq_self_of_head h2,
    List.reverse_reverse]

/-! ### Python's substring test `pat in s` -/

def containsSub (pat : List Char) : List Char → Bool
  | [] => pat.isEmpty
  | c :: rest => pat.isPrefixOf (c :: rest) || containsSub pat rest

theorem containsSub_iff {pat : List Char} :
    ∀ {l : List Char}, containsSub pat l = true ↔ pat <:+: l := by
  intro l
  induction l with
  | nil =>
    simp only [containsSub, List.isEmpty_iff, List.infix_nil]
  | cons c rest ih =>
    simp only [containsSub, Bool.or_eq_true, List.isPrefixOf_iff_prefix, ih,
      List.infix_cons_iff]

/-! ### `str.replace(pat, rep)` — global left-to-right replacement

CPython's `str.replace` scans left to right; at each position it either
replaces a match of `pat` (jumping past it) or moves one character on.  The
fuel makes the definition structurally recursive; for a non-empty pattern the
input length bounds the number of steps.  (For `pat = ""` CPython inserts
`rep` at every position — that case never occurs in this program, and the
model leaves the string unchanged.) -/

def replaceAllF : Nat → List Char → List Char → List Char → List Char
  | 0, _, _, l => l
  | _ + 1, _, _, [] => []
  | fuel + 1, pat, rep, c :: rest =>
    if !pat.isEmpty && pat.isPrefixOf (c :: rest) then
      rep ++ replaceAllF fuel pat rep ((c :: rest).drop pat.length)
    else c :: replaceAllF fuel pat rep rest

def replaceAll (pat rep l : List Char) : List Char := replaceAllF l.length pat rep l

theorem replaceAllF_fuel : ∀ (f₁ f₂ : Nat) (pat rep l : List Char),
    l.length ≤ f₁ → l.length ≤ f₂ →
    replaceAllF f₁ pat rep l = replaceAllF f₂ pat rep l := by
  intro f₁
  induction f₁ with
  | zero =>
    intro f₂ pat rep l h1 _
    have : l = [] := List.eq_nil_of_length_eq_zero (Nat.le_zero.mp h1)
    subst this
    cases f₂ <;> rfl
  | succ f ih =>
    intro f₂ pat rep l h1 h2
    cases l with
    | nil => cases f₂ <;> rfl
    | cons c rest =>
      simp only [List.length_cons] at h1 h2
      cases f₂ with
      | zero => omega
      | succ f' =>
        simp only [replaceAllF]
        by_cases hp : (!pat.isEmpty && pat.isPrefixOf (c :: rest)) = true
        · rw [if_pos hp, if_pos hp]
          have hpat : pat ≠ [] := by
            simp only [Bool.and_eq_true, Bool.not_eq_true', List.isEmpty_eq_false] at hp
            exact hp.1
          have hlen : 1 ≤ pat.length := List.length_pos.mpr hpat
          have hd : ((c :: rest).drop pat.length).length ≤ rest.length := by
            simp only [List.length_drop, List.length_cons]
            omega
          rw [ih f' pat rep _ (by omega) (by omega)]
        · rw [if_neg hp, if_neg hp]
          rw [ih f' pat rep rest (by omega) (by omega)]

theorem replaceAll_nil (pat rep : List Char) : replaceAll pat rep [] = [] := rfl

theorem replaceAll_cons_pos {pat : List Char} (rep : List Char) {c : Char}
    {rest : List Char} (h1 : pat ≠ []) (h2 : pat <+: c :: rest) :
    replaceAll pat rep (c :: rest) =
      rep ++ replaceAll pat rep ((c :: rest).drop pat.length) := by
  have hb : (!pat.isEmpty && pat.isPrefixOf (c :: rest)) = true := by
    simp [List.isPrefixOf_iff_prefix, h1, h2]
  show replaceAllF (rest.length + 1) pat rep (c :: rest) = _
  simp only [replaceAllF, hb, if_true]
  have hlen : 1 ≤ pat.length := List.length_pos.mpr h1
  rw [replaceAllF_fuel rest.length ((c :: rest).drop pat.length).length pat rep _
    (by simp only [List.length_drop, List.length_cons]; omega) le_rfl]
  rfl

theorem replaceAll_cons_neg {pat : List Char} (rep : List Char) {c : Char}
    {rest : List Char} (h : ¬ pat <+: c :: rest) :
    replaceAll pat rep (c :: rest) = c :: replaceAll pat rep rest := by
  have hb : (!pat.isEmpty && pat.isPrefixOf (c :: rest)) = false := by
    have : pat.isPrefixOf (c :: rest) = false := by
      rw [Bool.eq_false_iff]
      intro hT
      exact h (List.isPrefixOf_iff_prefix.mp hT)
    simp [this]
  show replaceAllF (rest.length + 1) pat rep (c :: rest) = _
  simp only [replaceAllF, hb, Bool.false_eq_true, if_false]
  rfl

/-- With no occurrence of the (nonempty) pattern, `replace` is the identity. -/
theorem replaceAll_of_not_sub : ∀ {pat rep l : List Char}, pat ≠ [] →
    ¬ pat <:+: l → replaceAll pat rep l = l := by
  intro pat rep l
  induction l with
  | nil => intro _ _; rfl
  | cons c rest ih =>
    intro h1 h2
    have hnp : ¬ pat <+: c :: rest := fun hp => h2 (hp.isInfix)
    rw [replaceAll_cons_neg rep hnp, ih h1 (fun hi => h2 (hi.trans
      (List.infix_cons_iff.mpr (Or.inr List.infix_rfl))))]

theorem replaceAll_nil_pat : ∀ (rep l : List Char), replaceAll [] rep l = l := by
  intro rep l
  induction l with
  | nil => rfl
  | cons c rest ih =>
    show replaceAllF (rest.length + 1) [] rep (c :: rest) = _
    simp only [replaceAllF, List.isEmpty_nil, Bool.not_true, Bool.false_and,
      Bool.false_eq_true, if_false]
    rw [show replaceAllF rest.length [] rep rest = replaceAll [] rep rest from rfl, ih]

theorem replaceAll_ne_nil {pat rep l : List Char}
    (h2 : l ≠ []) (h3 : rep ≠ []) : replaceAll pat rep l ≠ [] := by
  cases l with
  | nil => exact absurd rfl h2
  | cons c rest =>
    by_cases hpat : pat = []
    · subst hpat
      rw [replaceAll_nil_pat]
      simp
    · by_cases hp : pat <+: c :: rest
      · rw [replaceAll_cons_pos rep hpat hp]
        simp only [ne_eq, List.append_eq_nil, not_and]
        intro hr
        exact absurd hr h3
      · rw [replaceAll_cons_neg rep hp]
        simp

/-- Characters of the replacement result come from the input or from `rep`. -/
theorem mem_replaceAll_sub : ∀ (n : Nat) {pat rep l : List Char}, l.length ≤ n →
    ∀ c' ∈ replaceAll pat rep l, c' ∈ l ∨ c' ∈ rep := by
  intro n
  induction n with
  | zero =>
    intro pat rep l h1 c' hc'
    have : l = [] := List.eq_nil_of_length_eq_zero (Nat.le_zero.mp h1)
    subst this
    simp [replaceAll_nil] at hc'
  | succ n ih =>
    intro pat rep l h1 c' hc'
    cases l with
    | nil => simp [replaceAll_nil] at hc'
    | cons c rest =>
      simp only [List.length_cons] at h1
      by_cases hpat : pat = []
      · subst hpat
        rw [replaceAll_nil_pat] at hc'
        exact Or.inl hc'
      · by_cases hp : pat <+: c :: rest
        · rw [replaceAll_cons_pos rep hpat hp] at hc'
          rcases List.mem_append.mp hc' with h | h
          · exact Or.inr h
          · have hlen : 1 ≤ pat.length := List.length_pos.mpr hpat
            have hd : ((c :: rest).drop pat.length).length ≤ n := by
              simp only [List.length_drop, List.length_cons]
              omega
            rcases ih hd c' h with h' | h'
            · exact Or.inl (List.mem_of_mem_drop h')
            · exact Or.inr h'
        · rw [replaceAll_cons_neg rep hp] at hc'
          rcases List.mem_cons.mp hc' with rfl | h
          · exact Or.inl (by simp)
          · rcases ih (by omega) c' h with h' | h'
            · exact Or.inl (by simp [h'])
            · exact Or.inr h'

/-- A replacement whose pattern starts with a character of class `P` passes
over a region free of `P`-characters. -/
theorem replaceAll_append_left {P : Char → Bool} {p0 : Char} {pr rep ys : List Char} :
    ∀ {xs : List Char}, P p0 = true → (∀ c ∈ xs, P c = false) →
    replaceAll (p0 :: pr) rep (xs ++ ys) = xs ++ replaceAll (p0 :: pr) rep ys := by
  intro xs
  induction xs with
  | nil => intro _ _; rfl
  | cons x xs' ih =>
    intro h0 hxs
    have hx : P x = false := hxs x (by simp)
    have hne : ¬ (p0 :: pr) <+: x :: (xs' ++ ys) := by
      intro hpre
      have := (List.cons_prefix_cons.mp hpre).1
      subst this
      rw [h0] at hx
      cases hx
    rw [List.cons_append, replaceAll_cons_neg rep hne,
      ih h0 (fun c hc => hxs c (by simp [hc]))]
    rfl

/-- Boundary fact: a whitespace-free pattern is a prefix of `ys ++ zs` with
`zs` empty-or-whitespace-headed iff it is a prefix of `ys`. -/
theorem pat_prefix_append_blank {p0 : Char} {pr ys zs : List Char}
    (hpw : ∀ c ∈ p0 :: pr, isPyWS c = false) (hzs : headBlank zs = true) :
    (p0 :: pr) <+: ys ++ zs ↔ (p0 :: pr) <+: ys := by
  constructor
  · intro h
    by_cases hlen : (p0 :: pr).length ≤ ys.length
    · exact List.prefix_of_prefix_length_le h (List.prefix_append ys zs) hlen
    · exfalso
      have hys : ys <+: p0 :: pr :=
        List.prefix_of_prefix_length_le (List.prefix_append ys zs) h (by omega)
      obtain ⟨extra, hex⟩ := hys
      have hexne : extra ≠ [] := by
        intro hnil
        rw [hnil, List.append_nil] at hex
        rw [← hex] at hlen
        omega
      obtain ⟨t, ht⟩ := h
      rw [← hex, List.append_assoc] at ht
      have hzt : extra ++ t = zs := List.append_cancel_left ht
      cases extra with
      | nil => exact hexne rfl
      | cons e0 extra' =>
        have he0 : e0 ∈ p0 :: pr := by
          rw [← hex]
          simp
        have he0ws : isPyWS e0 = false := hpw e0 he0
        cases zs with
        | nil => simp at hzt
        | cons z0 zs' =>
          simp only [headBlank] at hzs
          have : e0 = z0 := by
            have := congrArg (fun l => l.head?) hzt
            simpa using this
          rw [this, hzs] at he0ws
          cases he0ws
  · intro h
    exact h.trans (List.prefix_append ys zs)

/-- A whitespace-free replacement distributes over a whitespace boundary. -/
theorem replaceAll_append_blank : ∀ (n : Nat) {p0 : Char} {pr rep ys zs : List Char},
    ys.length ≤ n → (∀ c ∈ p0 :: pr, isPyWS c = false) → headBlank zs = true →
    replaceAll (p0 :: pr) rep (ys ++ zs) =
      replaceAll (p0 :: pr) rep ys ++ replaceAll (p0 :: pr) rep zs := by
  intro n
  induction n with
  | zero =>
    intro p0 pr rep ys zs h1 _ _
    have : ys = [] := List.eq_nil_of_length_eq_zero (Nat.le_zero.mp h1)
    subst this
    simp [replaceAll_nil]
  | succ n ih =>
    intro p0 pr rep ys zs h1 hpw hzs
    cases ys with
    | nil => simp [replaceAll_nil]
    | cons y ys' =>
      simp only [List.length_cons] at h1
      by_cases hp : (p0 :: pr) <+: y :: ys'
      · have hp' : (p0 :: pr) <+: y :: (ys' ++ zs) :=
          (pat_prefix_append_blank hpw hzs).mpr hp
        rw [List.cons_append]
        rw [replaceAll_cons_pos rep (by simp) hp',
          replaceAll_cons_pos rep (by simp) hp]
        have hlen : (p0 :: pr).length ≤ (y :: ys').length := hp.length_le
        have hdrop : (y :: (ys' ++ zs)).drop (p0 :: pr).length =
            ((y :: ys').drop (p0 :: pr).length) ++ zs := by
          rw [show y :: (ys' ++ zs) = (y :: ys') ++ zs from rfl]
          exact List.drop_append_of_le_length hlen
        rw [hdrop]
        have hlp : ((y :: ys').drop (p0 :: pr).length).length ≤ n := by
          simp only [List.length_drop, List.length_cons]
          simp only [List.length_cons] at hlen
          omega
        rw [ih hlp hpw hzs, List.append_assoc]
      · have hp' : ¬ (p0 :: pr) <+: y :: (ys' ++ zs) := by
          intro hT
          exact hp ((pat_prefix_append_blank hpw hzs).mp hT)
        rw [List.cons_append, replaceAll_cons_neg rep hp', replaceAll_cons_neg rep hp,
          ih (by omega) hpw hzs]
        rfl

theorem headBlank_dropWhile_notWS : ∀ (l : List Char),
    headBlank (l.dropWhile notWS) = true := by
  intro l
  induction l with
  | nil => rfl
  | cons c r ih =>
    by_cases hc : notWS c = true
    · rw [List.dropWhile_cons_of_pos hc]
      exact ih
    · rw [List.dropWhile_cons_of_neg hc]
      simp only [headBlank]
      simp only [notWS, Bool.not_eq_true', Bool.not_eq_false] at hc
      exact hc

theorem headBlank_replaceAll {p0 : Char} {pr rep zs : List Char}
    (hpw : ∀ c ∈ p0 :: pr, isPyWS c = false) (hzs : headBlank zs = true) :
    headBlank (replaceAll (p0 :: pr) rep zs) = true := by
  cases zs with
  | nil => rfl
  | cons z r =>
    simp only [headBlank] at hzs
    have hne : ¬ (p0 :: pr) <+: z :: r := by
      intro hpre
      have := (List.cons_prefix_cons.mp hpre).1
      have hp0 : isPyWS p0 = false := hpw p0 (by simp)
      rw [this, hzs] at hp0
      cases hp0
    rw [replaceAll_cons_neg rep hne]
    simpa [headBlank] using hzs

/-- Key commutation: replacing a whitespace-free pattern by a whitespace-free
replacement maps each whitespace-separated token separately. -/
theorem pySplit_replaceAll : ∀ (n : Nat) {p0 : Char} {pr rep l : List Char},
    l.length ≤ n → (∀ c ∈ p0 :: pr, isPyWS c = false) → rep ≠ [] →
    (∀ c ∈ rep, isPyWS c = false) →
    pySplit (replaceAll (p0 :: pr) rep l) =
      (pySplit l).map (replaceAll (p0 :: pr) rep) := by
  intro n
  induction n with
  | zero =>
    intro p0 pr rep l h1 _ _ _
    have : l = [] := List.eq_nil_of_length_eq_zero (Nat.le_zero.mp h1)
    subst this
    rfl
  | succ n ih =>
    intro p0 pr rep l h1 hpw hrep hrw
    cases l with
    | nil => rfl
    | cons c rest =>
      simp only [List.length_cons] at h1
      by_cases hc : isPyWS c = true
      · have hne : ¬ (p0 :: pr) <+: c :: rest := by
          intro hpre
          have := (List.cons_prefix_cons.mp hpre).1
          have hp0 : isPyWS p0 = false := hpw p0 (by simp)
          rw [this, hc] at hp0
          cases hp0
        rw [replaceAll_cons_neg rep hne, pySplit_cons_ws hc, pySplit_cons_ws hc]
        exact ih (by omega) hpw hrep hrw
      · have hc' : isPyWS c = false := by simpa using hc
        have hsplit : c :: rest =
            (c :: rest.takeWhile notWS) ++ rest.dropWhile notWS := by
          simp [List.takeWhile_append_dropWhile]
        have htokne : (c :: rest.takeWhile notWS) ≠ [] := by simp
        have htokws : ∀ x ∈ c :: rest.takeWhile notWS, isPyWS x = false := by
          intro x hx
          rcases List.mem_cons.mp hx with rfl | hx'
          · exact hc'
          · have := List.mem_takeWhile_imp hx'
            simpa [notWS] using this
        have hblank : headBlank (rest.dropWhile notWS) = true :=
          headBlank_dropWhile_notWS rest
        rw [hsplit, replaceAll_append_blank (c :: rest.takeWhile notWS).length
          le_rfl hpw hblank]
        have hrtokne : replaceAll (p0 :: pr) rep (c :: rest.takeWhile notWS) ≠ [] :=
          replaceAll_ne_nil htokne hrep
        have hrtokws : ∀ x ∈ replaceAll (p0 :: pr) rep (c :: rest.takeWhile notWS),
            isPyWS x = false := by
          intro x hx
          rcases mem_replaceAll_sub (c :: rest.takeWhile notWS).length le_rfl x hx
            with h | h
          · exact htokws x h
          · exact hrw x h
        have hrblank : headBlank (replaceAll (p0 :: pr) rep
            (rest.dropWhile notWS)) = true :=
          headBlank_replaceAll hpw hblank
        rw [pySplit_tok_append hrtokne hrtokws hrblank,
          pySplit_tok_append htokne htokws hblank]
        have hd := length_dropWhile_le notWS rest
        rw [ih (l := rest.dropWhile notWS) (by omega) hpw hrep hrw]
        rfl

theorem takeWhile_map_pres {f : Char → Char}
    (hf : ∀ c, isPyWS (f c) = isPyWS c) :
    ∀ (l : List Char), (l.map f).takeWhile notWS = (l.takeWhile notWS).map f := by
  intro l
  induction l with
  | nil => rfl
  | cons c r ih =>
    by_cases hc : notWS c = true
    · have hfc : notWS (f c) = true := by
        simp only [notWS] at hc ⊢
        rw [hf c]
        exact hc
      simp only [List.map_cons, List.takeWhile_cons_of_pos hfc,
        List.takeWhile_cons_of_pos hc, List.map_cons, ih]
    · have hfc : ¬ notWS (f c) = true := by
        simp only [notWS] at hc ⊢
        rw [hf c]
        exact hc
      simp only [List.map_cons, List.takeWhile_cons_of_neg hfc,
        List.takeWhile_cons_of_neg hc, List.map_nil]

theorem dropWhile_map_pres {f : Char → Char}
    (hf : ∀ c, isPyWS (f c) = isPyWS c) :
    ∀ (l : List Char), (l.map f).dropWhile notWS = (l.dropWhile notWS).map f := by
  intro l
  induction l with
  | nil => rfl
  | cons c r ih =>
    by_cases hc : notWS c = true
    · have hfc : notWS (f c) = true := by
        simp only [notWS] at hc ⊢
        rw [hf c]
        exact hc
      simp only [List.map_cons, List.dropWhile_cons_of_pos hfc,
        List.dropWhile_cons_of_pos hc, ih]
    · have hfc : ¬ notWS (f c) = true := by
        simp only [notWS] at hc ⊢
        rw [hf c]
        exact hc
      simp only [List.map_cons, List.dropWhile_cons_of_neg hfc,
        List.dropWhile_cons_of_neg hc]

/-- Splitting commutes with any character map that preserves whitespace-ness
(such as `str.lower()`). -/
theorem pySplit_map_pres : ∀ (n : Nat) {f : Char → Char} {l : List Char},
    l.length ≤ n → (∀ c, isPyWS (f c) = isPyWS c) →
    pySplit (l.map f) = (pySplit l).map (List.map f) := by
  intro n
  induction n with
  | zero =>
    intro f l h1 _
    have : l = [] := List.eq_nil_of_length_eq_zero (Nat.le_zero.mp h1)
    subst this
    rfl
  | succ n ih =>
    intro f l h1 hf
    cases l with
    | nil => rfl
    | cons c rest =>
      simp only [List.length_cons] at h1
      by_cases hc : isPyWS c = true
      · have hfc : isPyWS (f c) = true := by rw [hf c]; exact hc
        rw [List.map_cons, pySplit_cons_ws hfc, pySplit_cons_ws hc]
        exact ih (by omega) hf
      · have hc' : isPyWS c = false := by simpa using hc
        have hfc : isPyWS (f c) = false := by rw [hf c]; exact hc'
        rw [List.map_cons, pySplit_cons_tok hfc, pySplit_cons_tok hc',
          takeWhile_map_pres hf, dropWhile_map_pres hf]
        have hd := length_dropWhile_le notWS rest
        rw [ih (l := rest.dropWhile notWS) (by omega) hf]
        rfl

/-! ### The date model

`datetime.strptime(s, "%d %B %Y")` compiles (in CPython's `_strptime`) to the
case-insensitive regex `day \s+ month \s+ year` matched against the whole
string, where `day` is `3[01]|[12]\d|0[1-9]|[1-9]` (one or two digits, value
1–31, "0"/"00" excluded), `month` is an alternation of the full English month
names, and `year` is exactly four digits.  `datetime` then rejects year 0 and
days beyond the month length.  `strftime("%Y-%m-%d")` zero-pads month and day
to two digits and prints the year unpadded (glibc).  Tokens therefore align
with whitespace-split fields, which is how `strptimeDMY` is stated. -/

def digitsToNat (l : List Char) : Nat :=
  l.foldl (fun a c => a * 10 + (c.toNat - 48)) 0

def digitChar : Nat → Char
  | 0 => '0' | 1 => '1' | 2 => '2' | 3 => '3' | 4 => '4'
  | 5 => '5' | 6 => '6' | 7 => '7' | 8 => '8' | 9 => '9' | _ => '*'

def natToCharsF : Nat → Nat → List Char
  | 0, _ => []
  | fuel + 1, n =>
    if n < 10 then [digitChar n]
    else natToCharsF fuel (n / 10) ++ [digitChar (n % 10)]

/-- Decimal rendering of a natural number (no padding), as glibc `%Y`. -/
def natToChars (n : Nat) : List Char := natToCharsF (n + 1) n

/-- Two-digit zero-padded rendering, as `%m` / `%d`. -/
def pad2 (n : Nat) : List Char :=
  if n < 10 then '0' :: natToChars n else natToChars n

/-- The fixed English month-name table of `%B` (C/en locale), lower-cased,
with month numbers. -/
def ENGLISH_MONTHS : List (List Char × Nat) :=
  [("january".data, 1), ("february".data, 2), ("march".data, 3),
   ("april".data, 4), ("may".data, 5), ("june".data, 6),
   ("july".data, 7), ("august".data, 8), ("september".data, 9),
   ("october".data, 10), ("november".data, 11), ("december".data, 12)]

/-- `INDONESIAN_MONTHS` from the source (both scripts define the same table,
in this insertion order). -/
def INDONESIAN_MONTHS : List (List Char × List Char) :=
  [("januari".data, "January".data), ("februari".data, "February".data),
   ("maret".data, "March".data), ("april".data, "April".data),
   ("mei".data, "May".data), ("juni".data, "June".data),
   ("juli".data, "July".data), ("agustus".data, "August".data),
   ("september".data, "September".data), ("oktober".data, "October".data),
   ("november".data, "November".data), ("desember".data, "December".data)]

/-- `%B` month lookup, case-insensitive (the `_strptime` regex is compiled
with `IGNORECASE`). -/
def monthNum? (m : List Char) : Option Nat :=
  ENGLISH_MONTHS.lookup (m.map pyLower)

def isLeap (y : Nat) : Bool := y % 4 == 0 && (y % 100 != 0 || y % 400 == 0)

def daysInMonth (y m : Nat) : Nat :=
  if m = 2 then (if isLeap y then 29 else 28)
  else if m = 4 ∨ m = 6 ∨ m = 9 ∨ m = 11 then 30 else 31

/-- The `%d` field: digits only, one or two of them, value 1–31 (this is
exactly the regex `3[01]|[12]\d|0[1-9]|[1-9]` matched against a whole
whitespace-delimited token). -/
def dayTokOk (d : List Char) : Bool :=
  d.all isDigitC && (d.length == 1 || d.length == 2) &&
    decide (1 ≤ digitsToNat d) && decide (digitsToNat d ≤ 31)

/-- The `%Y` field: exactly four digits. -/
def yearTokOk (y : List Char) : Bool := y.length == 4 && y.all isDigitC

/-- `strftime("%Y-%m-%d")` output. -/
def renderDate (yv mn dv : Nat) : List Char :=
  natToChars yv ++ '-' :: (pad2 mn ++ '-' :: pad2 dv)

/-- Token-level `strptime("%d %B %Y")` + `datetime` validation + `strftime`:
given the three fields, produce the canonical date or fail. -/
def buildDate (d m y : List Char) : Option (List Char) :=
  if dayTokOk d && yearTokOk y then
    match monthNum? m with
    | some mn =>
      if 1 ≤ digitsToNat y ∧ digitsToNat d ≤ daysInMonth (digitsToNat y) mn then
        some (renderDate (digitsToNat y) mn (digitsToNat d))
      else none
    | none => none
  else none

/-- `datetime.strptime(l, "%d %B %Y")` followed by `strftime("%Y-%m-%d")`:
the regex must match the whole string, so the string must consist of exactly
three whitespace-separated fields with no leading or trailing whitespace. -/
def strptimeDMY (l : List Char) : Option (List Char) :=
  match pySplit l with
  | [d, m, y] => if headIsWS l || lastIsWS l then none else buildDate d m y
  | _ => none

/-- Python `str.capitalize()`: first character upper-cased, rest lower-cased
(ASCII fragment). -/
def capitalizeL : List Char → List Char
  | [] => []
  | c :: r => pyUpper c :: r.map pyLower

namespace InsertParticipants

/-- `parse_indonesian_date` of `insert_participants.py`: strip+lower, split;
with three tokens translate the month via the Indonesian table or fall back
to treating it as English; otherwise try the whole string as `"%d %B %Y"`
(which cannot succeed without exactly three fields).  `pd.isna` is `False`
for every string, so only the emptiness test remains from the first guard. -/
def parse_indonesian_date (s : List Char) : Option (List Char) :=
  if s.isEmpty then none
  else
    let t := lowerL (stripL s)
    match pySplit t with
    | [d, mi, y] =>
      match INDONESIAN_MONTHS.lookup mi with
      | some eng => strptimeDMY (d ++ ' ' :: (eng ++ ' ' :: y))
      | none => strptimeDMY (d ++ ' ' :: (capitalizeL mi ++ ' ' :: y))
    | _ => strptimeDMY t

end InsertParticipants

namespace InsertSchedules

/-- `parse_indonesian_date` of `insert_schedules.py`: lower-case (no strip),
replace all occurrences of the first Indonesian month name that occurs as a
substring, try `strptime`; on failure try the original string. -/
def parse_indonesian_date (s : List Char) : Option (List Char) :=
  if s.isEmpty then none
  else
    let low := lowerL s
    let rep := match INDONESIAN_MONTHS.find? (fun p => containsSub p.1 low) with
      | some (ind, eng) => replaceAll ind eng low
      | none => low
    match strptimeDMY rep with
    | some r => some r
    | none => strptimeDMY s

end InsertSchedules

/-! ### Characterization of the participants-side date parser -/

theorem lookup_mem {α β : Type} [BEq α] [LawfulBEq α] :
    ∀ {l : List (α × β)} {k : α} {v : β}, l.lookup k = some v → (k, v) ∈ l := by
  intro l
  induction l with
  | nil => intro k v h; simp [List.lookup] at h
  | cons p es ih =>
    intro k v h
    obtain ⟨a, b⟩ := p
    simp only [List.lookup] at h
    by_cases hk : (k == a) = true
    · rw [hk] at h
      simp only [Option.some.injEq] at h
      subst h
      have := eq_of_beq hk
      subst this
      simp
    · rw [Bool.not_eq_true] at hk
      rw [hk] at h
      exact List.mem_cons_of_mem _ (ih h)

theorem isPyWS_pyUpper (c : Char) : isPyWS (pyUpper c) = isPyWS c := by
  simp only [isPyWS, pyUpper_toNat]
  split_ifs with h
  · rw [Bool.eq_iff_iff]
    simp only [Bool.or_eq_true, decide_eq_true_eq]
    omega
  · rfl

theorem map_pyLower_capitalizeL (m : List Char) :
    (capitalizeL m).map pyLower = m.map pyLower := by
  cases m with
  | nil => rfl
  | cons c r =>
    simp only [capitalizeL, List.map_cons, pyLower_pyUpper, List.map_map]
    congr 1
    apply List.map_congr_left
    intro a _
    exact pyLower_pyLower a

theorem monthNum?_map_pyLower (m : List Char) :
    monthNum? (m.map pyLower) = monthNum? m := by
  unfold monthNum?
  rw [List.map_map]
  congr 1
  apply List.map_congr_left
  intro a _
  exact pyLower_pyLower a

theorem monthNum?_capitalizeL (m : List Char) :
    monthNum? (capitalizeL m) = monthNum? m := by
  unfold monthNum?
  rw [map_pyLower_capitalizeL]

theorem buildDate_month_capitalizeL (d m y : List Char) :
    buildDate d (capitalizeL m) y = buildDate d m y := by
  unfold buildDate
  rw [monthNum?_capitalizeL]

theorem headIsWS_of_tok {a b : List Char} (ha : a ≠ [])
    (hw : ∀ c ∈ a, isPyWS c = false) : headIsWS (a ++ b) = false := by
  cases a with
  | nil => exact absurd rfl ha
  | cons c t =>
    simp only [List.cons_append, headIsWS]
    exact hw c (by simp)

theorem lastIsWS_of_tok {a b : List Char} (ha : a ≠ [])
    (hw : ∀ c ∈ a, isPyWS c = false) : lastIsWS (b ++ a) = false := by
  unfold lastIsWS
  rw [List.reverse_append]
  apply headIsWS_of_tok
  · simpa using ha
  · intro c hc
    exact hw c (List.mem_reverse.mp hc)

theorem pySplit_three_toks {d m y : List Char}
    (hd : d ≠ []) (hdw : ∀ c ∈ d, isPyWS c = false)
    (hm : m ≠ []) (hmw : ∀ c ∈ m, isPyWS c = false)
    (hy : y ≠ []) (hyw : ∀ c ∈ y, isPyWS c = false) :
    pySplit (d ++ ' ' :: (m ++ ' ' :: y)) = [d, m, y] := by
  rw [show d ++ ' ' :: (m ++ ' ' :: y) = d ++ (' ' :: (m ++ ' ' :: y)) from rfl,
    pySplit_tok_append hd hdw (by rfl),
    pySplit_cons_ws (by decide),
    pySplit_tok_append hm hmw (by rfl),
    pySplit_cons_ws (by decide),
    show y = y ++ [] from (List.append_nil y).symm,
    pySplit_tok_append (by simpa using hy) (by simpa using hyw) (by rfl)]
  simp [pySplit_nil]

/-- Evaluating `strptime` on a string built from three clean fields. -/
theorem strptimeDMY_three {d m y : List Char}
    (hd : d ≠ []) (hdw : ∀ c ∈ d, isPyWS c = false)
    (hm : m ≠ []) (hmw : ∀ c ∈ m, isPyWS c = false)
    (hy : y ≠ []) (hyw : ∀ c ∈ y, isPyWS c = false) :
    strptimeDMY (d ++ ' ' :: (m ++ ' ' :: y)) = buildDate d m y := by
  unfold strptimeDMY
  rw [pySplit_three_toks hd hdw hm hmw hy hyw]
  have hhead : headIsWS (d ++ ' ' :: (m ++ ' ' :: y)) = false :=
    headIsWS_of_tok hd hdw
  have hE : d ++ ' ' :: (m ++ ' ' :: y) = (d ++ ' ' :: (m ++ [' '])) ++ y := by
    simp
  have hlast : lastIsWS (d ++ ' ' :: (m ++ ' ' :: y)) = false := by
    rw [hE]
    exact lastIsWS_of_tok hy hyw
  rw [hhead, hlast]
  rfl

/-- The concrete Indonesian month table: nonempty whitespace-free keys and
values. -/
theorem indo_table_clean : ∀ p ∈ INDONESIAN_MONTHS,
    p.1 ≠ [] ∧ (∀ c ∈ p.1, isPyWS c = false) ∧
    p.2 ≠ [] ∧ (∀ c ∈ p.2, isPyWS c = false) := by decide

theorem capitalizeL_ne_nil {m : List Char} (hm : m ≠ []) : capitalizeL m ≠ [] := by
  cases m with
  | nil => exact absurd rfl hm
  | cons c r => simp [capitalizeL]

theorem capitalizeL_ws_free {m : List Char} (hmw : ∀ c ∈ m, isPyWS c = false) :
    ∀ c ∈ capitalizeL m, isPyWS c = false := by
  cases m with
  | nil => intro c hc; simp [capitalizeL] at hc
  | cons c0 r =>
    intro c hc
    simp only [capitalizeL, List.mem_cons, List.mem_map] at hc
    rcases hc with rfl | ⟨a, ha, rfl⟩
    · rw [isPyWS_pyUpper]
      exact hmw c0 (by simp)
    · rw [isPyWS_pyLower]
      exact hmw a (by simp [ha])

/-- Full characterization of `insert_participants.py`'s
`parse_indonesian_date`: strip and lower-case, split into fields; succeed
exactly on three fields whose month is resolvable (Indonesian table first,
else English `%B`) and whose day/year fields pass the `%d`/`%Y` format and
calendar checks. -/
theorem parse1_characterization (s : List Char) :
    InsertParticipants.parse_indonesian_date s =
      (match pySplit (lowerL (stripL s)) with
       | [d, m, y] =>
         (match INDONESIAN_MONTHS.lookup m with
          | some eng => buildDate d eng y
          | none => buildDate d m y)
       | _ => none) := by
  unfold InsertParticipants.parse_indonesian_date
  by_cases hs : s.isEmpty = true
  · rw [if_pos hs]
    have : s = [] := by simpa using hs
    subst this
    rfl
  · rw [if_neg hs]
    show (match pySplit (lowerL (stripL s)) with
          | [d, mi, y] =>
            (match INDONESIAN_MONTHS.lookup mi with
             | some eng => strptimeDMY (d ++ ' ' :: (eng ++ ' ' :: y))
             | none => strptimeDMY (d ++ ' ' :: (capitalizeL mi ++ ' ' :: y)))
          | _ => strptimeDMY (lowerL (stripL s))) = _
    have hprops := pySplit_tok_props (lowerL (stripL s))
    cases hsp : pySplit (lowerL (stripL s)) with
    | nil => simp only [strptimeDMY, hsp]
    | cons d rest =>
      cases rest with
      | nil => simp only [strptimeDMY, hsp]
      | cons m rest2 =>
        cases rest2 with
        | nil => simp only [strptimeDMY, hsp]
        | cons y rest3 =>
          cases rest3 with
          | cons w rest4 => simp only [strptimeDMY, hsp]
          | nil =>
            rw [hsp] at hprops
            obtain ⟨hd, hdw, -⟩ := hprops d (by simp)
            obtain ⟨hm, hmw, -⟩ := hprops m (by simp)
            obtain ⟨hy, hyw, -⟩ := hprops y (by simp)
            cases hlk : INDONESIAN_MONTHS.lookup m with
            | some eng =>
              obtain ⟨-, -, he1, he2⟩ := indo_table_clean (m, eng) (lookup_mem hlk)
              simp only [hlk]
              exact strptimeDMY_three hd hdw he1 he2 hy hyw
            | none =>
              simp only [hlk]
              rw [strptimeDMY_three hd hdw (capitalizeL_ne_nil hm)
                (capitalizeL_ws_free hmw) hy hyw]
              exact buildDate_month_capitalizeL d m y

/-! ### Lower-casing invariance of `strptime` -/

theorem pyLower_fix_digit {c : Char} (h : isDigitC c = true) : pyLower c = c := by
  simp only [isDigitC, Bool.and_eq_true, decide_eq_true_eq] at h
  unfold pyLower
  rw [if_neg (by omega)]

theorem all_isDigitC_lowerL (l : List Char) :
    (lowerL l).all isDigitC = l.all isDigitC := by
  unfold lowerL
  rw [List.all_map]
  congr 1
  funext c
  exact isDigitC_pyLower c

theorem lowerL_fix_digits {l : List Char} (h : l.all isDigitC = true) :
    lowerL l = l := by
  unfold lowerL
  rw [List.all_eq_true] at h
  rw [show l.map pyLower = l.map id from
    List.map_congr_left (fun c hc => pyLower_fix_digit (h c hc)), List.map_id]

theorem buildDate_congr_month {d m1 m2 y : List Char}
    (h : monthNum? m1 = monthNum? m2) : buildDate d m1 y = buildDate d m2 y := by
  unfold buildDate
  rw [h]

theorem buildDate_lowerL (d m y : List Char) :
    buildDate (lowerL d) (lowerL m) (lowerL y) = buildDate d m y := by
  have hm : monthNum? (lowerL m) = monthNum? m := monthNum?_map_pyLower m
  by_cases hd : d.all isDigitC = true
  · rw [lowerL_fix_digits hd]
    by_cases hy : y.all isDigitC = true
    · rw [lowerL_fix_digits hy]
      exact buildDate_congr_month hm
    · unfold buildDate
      have : yearTokOk (lowerL y) = false := by
        unfold yearTokOk
        rw [all_isDigitC_lowerL]
        simp only [Bool.not_eq_true] at hy
        simp [hy]
      have h2 : yearTokOk y = false := by
        unfold yearTokOk
        simp only [Bool.not_eq_true] at hy
        simp [hy]
      rw [this, h2]
      simp
  · unfold buildDate
    have : dayTokOk (lowerL d) = false := by
      unfold dayTokOk
      rw [all_isDigitC_lowerL]
      simp only [Bool.not_eq_true] at hd
      simp [hd]
    have h2 : dayTokOk d = false := by
      unfold dayTokOk
      simp only [Bool.not_eq_true] at hd
      simp [hd]
    rw [this, h2]
    simp

theorem headIsWS_lowerL (l : List Char) : headIsWS (lowerL l) = headIsWS l := by
  cases l with
  | nil => rfl
  | cons c r => simp [headIsWS, lowerL, isPyWS_pyLower]

theorem lastIsWS_lowerL (l : List Char) : lastIsWS (lowerL l) = lastIsWS l := by
  unfold lastIsWS lowerL
  rw [← List.map_reverse]
  exact headIsWS_lowerL l.reverse

theorem strptimeDMY_eq_buildDate {l d m y : List Char}
    (hsp : pySplit l = [d, m, y]) (hh : headIsWS l = false)
    (hl : lastIsWS l = false) : strptimeDMY l = buildDate d m y := by
  unfold strptimeDMY
  rw [hsp, hh, hl]
  rfl

theorem strptimeDMY_none_of_buildDate_none {l d m y : List Char}
    (hsp : pySplit l = [d, m, y]) (hb : buildDate d m y = none) :
    strptimeDMY l = none := by
  unfold strptimeDMY
  rw [hsp]
  show (if (headIsWS l || lastIsWS l) = true then none else buildDate d m y) = none
  by_cases h : (headIsWS l || lastIsWS l) = true
  · rw [if_pos h]
  · rw [if_neg h]
    exact hb

theorem strptimeDMY_not3 {l : List Char}
    (h : ∀ d m y : List Char, pySplit l ≠ [d, m, y]) : strptimeDMY l = none := by
  unfold strptimeDMY
  cases hsp : pySplit l with
  | nil => rfl
  | cons d rest =>
    cases rest with
    | nil => rfl
    | cons m rest2 =>
      cases rest2 with
      | nil => rfl
      | cons y rest3 =>
        cases rest3 with
        | nil => exact absurd hsp (h d m y)
        | cons w rest4 => rfl

/-- `strptime` is insensitive to lower-casing the input (the regex is
case-insensitive). -/
theorem strptimeDMY_lowerL (l : List Char) :
    strptimeDMY (lowerL l) = strptimeDMY l := by
  have hsp : pySplit (lowerL l) = (pySplit l).map (List.map pyLower) :=
    pySplit_map_pres l.length le_rfl isPyWS_pyLower
  cases h : pySplit l with
  | nil =>
    rw [strptimeDMY_not3, strptimeDMY_not3]
    · intro d m y hc; rw [h] at hc; cases hc
    · intro d m y hc; rw [h] at hsp; rw [hsp] at hc; cases hc
  | cons d rest =>
    cases rest with
    | nil =>
      rw [strptimeDMY_not3, strptimeDMY_not3]
      · intro a b c hc; rw [h] at hc; cases hc
      · intro a b c hc; rw [h] at hsp; rw [hsp] at hc; cases hc
    | cons m rest2 =>
      cases rest2 with
      | nil =>
        rw [strptimeDMY_not3, strptimeDMY_not3]
        · intro a b c hc; rw [h] at hc; cases hc
        · intro a b c hc; rw [h] at hsp; rw [hsp] at hc; cases hc
      | cons y rest3 =>
        cases rest3 with
        | cons w rest4 =>
          rw [strptimeDMY_not3, strptimeDMY_not3]
          · intro a b c hc; rw [h] at hc; cases hc
          · intro a b c hc; rw [h] at hsp; rw [hsp] at hc; cases hc
        | nil =>
          rw [h] at hsp
          unfold strptimeDMY
          rw [h, hsp]
          simp only [List.map_cons, List.map_nil]
          rw [headIsWS_lowerL, lastIsWS_lowerL]
          by_cases hE : (headIsWS l || lastIsWS l) = true
          · rw [if_pos hE, if_pos hE]
          · rw [if_neg hE, if_neg hE]
            exact buildDate_lowerL d m y

/-! ### First-occurrence decomposition for `replace` -/

theorem replaceAll_first_occ : ∀ {m pat rep : List Char}, pat ≠ [] →
    pat <:+: m → ∃ p r, m = p ++ pat ++ r ∧
      replaceAll pat rep m = p ++ rep ++ replaceAll pat rep r := by
  intro m
  induction m with
  | nil =>
    intro pat rep hpat hsub
    exact absurd (List.infix_nil.mp hsub) hpat
  | cons c m' ih =>
    intro pat rep hpat hsub
    by_cases hpre : pat <+: c :: m'
    · obtain ⟨t, ht⟩ := hpre
      refine ⟨[], t, by simp [← ht], ?_⟩
      rw [replaceAll_cons_pos rep hpat ⟨t, ht⟩]
      have : (c :: m').drop pat.length = t := by
        rw [← ht, List.drop_left]
      rw [this]
      simp
    · have hsub' : pat <:+: m' := by
        rcases List.infix_cons_iff.mp hsub with h | h
        · exact absurd h hpre
        · exact h
      obtain ⟨p', r', hm', hr'⟩ := ih hpat hsub'
      refine ⟨c :: p', r', by simp [hm'], ?_⟩
      rw [replaceAll_cons_neg rep hpre, hr']
      simp

theorem replaceAll_self {pat rep : List Char} (hpat : pat ≠ []) :
    replaceAll pat rep pat = rep := by
  cases pat with
  | nil => exact absurd rfl hpat
  | cons c pr =>
    rw [replaceAll_cons_pos rep hpat (List.prefix_refl (c :: pr)), List.drop_length,
      replaceAll_nil]
    simp

theorem lookup_isSome_of_mem {α β : Type} [BEq α] [LawfulBEq α] :
    ∀ {l : List (α × β)} {k : α} {v : β}, (k, v) ∈ l → l.lookup k ≠ none := by
  intro l
  induction l with
  | nil => intro k v h; simp at h
  | cons p es ih =>
    intro k v h
    obtain ⟨a, b⟩ := p
    simp only [List.lookup]
    by_cases hk : (k == a) = true
    · rw [hk]; simp
    · rw [Bool.not_eq_true] at hk
      rw [hk]
      rcases List.mem_cons.mp h with hh | ht
      · exfalso
        have : k = a := congrArg Prod.fst hh
        subst this
        simp at hk
      · exact ih ht

/-! ### Restricting infix occurrences by character classes -/

theorem isDigitC_not_isAlphaC {c : Char} (h : isDigitC c = true) : isAlphaC c = false := by
  simp only [isDigitC, Bool.and_eq_true, decide_eq_true_eq] at h
  simp only [isAlphaC, isUpperC, isLowerC, Bool.or_eq_false_iff,
    Bool.and_eq_false_iff, decide_eq_false_iff_not]
  omega

theorem isPyWS_not_isAlphaC {c : Char} (h : isPyWS c = true) : isAlphaC c = false := by
  simp only [isPyWS, Bool.or_eq_true, decide_eq_true_eq] at h
  simp only [isAlphaC, isUpperC, isLowerC, Bool.or_eq_false_iff,
    Bool.and_eq_false_iff, decide_eq_false_iff_not]
  omega

theorem infix_drop_left {P : Char → Bool} {p0 : Char} {pr : List Char} :
    ∀ {xs ys : List Char}, P p0 = true → (∀ c ∈ xs, P c = false) →
    (p0 :: pr) <:+: xs ++ ys → (p0 :: pr) <:+: ys := by
  intro xs
  induction xs with
  | nil => intro ys _ _ h; simpa using h
  | cons x xs' ih =>
    intro ys h0 hxs hsub
    rcases List.infix_cons_iff.mp hsub with h | h
    · exfalso
      have := (List.cons_prefix_cons.mp h).1
      subst this
      rw [hxs p0 (by simp)] at h0
      cases h0
    · exact ih h0 (fun c hc => hxs c (by simp [hc])) h

theorem infix_drop_right {pat : List Char} {P : Char → Bool} {ys zs : List Char}
    (hne : pat ≠ []) (hall : ∀ c ∈ pat, P c = true)
    (hzs : ∀ c ∈ zs, P c = false) (hsub : pat <:+: ys ++ zs) : pat <:+: ys := by
  rw [← List.reverse_infix] at hsub ⊢
  rw [List.reverse_append] at hsub
  cases hre : pat.reverse with
  | nil =>
    exfalso
    exact hne (by simpa using hre)
  | cons q0 qr =>
    rw [hre] at hsub
    have hq0 : P q0 = true := by
      apply hall
      rw [← List.mem_reverse, hre]
      simp
    exact hre ▸ infix_drop_left hq0
      (fun c hc => hzs c (List.mem_reverse.mp hc)) hsub

/-! ### Character classes of one- and two-token strings -/

theorem pySplit_eq_nil_ws : ∀ (n : Nat) (r : List Char), r.length ≤ n →
    pySplit r = [] → ∀ c ∈ r, isPyWS c = true := by
  intro n
  induction n with
  | zero =>
    intro r h1 _ c hc
    have : r = [] := List.eq_nil_of_length_eq_zero (Nat.le_zero.mp h1)
    subst this
    simp at hc
  | succ n ih =>
    intro r h1 hsp c hc
    cases r with
    | nil => simp at hc
    | cons c0 rest =>
      simp only [List.length_cons] at h1
      by_cases hc0 : isPyWS c0 = true
      · rw [pySplit_cons_ws hc0] at hsp
        rcases List.mem_cons.mp hc with rfl | hc'
        · exact hc0
        · exact ih rest (by omega) hsp c hc'
      · rw [pySplit_cons_tok (by simpa using hc0)] at hsp
        cases hsp

theorem pySplit_single_chars : ∀ (n : Nat) (r y : List Char), r.length ≤ n →
    pySplit r = [y] → ∀ c ∈ r, c ∈ y ∨ isPyWS c = true := by
  intro n
  induction n with
  | zero =>
    intro r y h1 _ c hc
    have : r = [] := List.eq_nil_of_length_eq_zero (Nat.le_zero.mp h1)
    subst this
    simp at hc
  | succ n ih =>
    intro r y h1 hsp c hc
    cases r with
    | nil => simp at hc
    | cons c0 rest =>
      simp only [List.length_cons] at h1
      by_cases hc0 : isPyWS c0 = true
      · rw [pySplit_cons_ws hc0] at hsp
        rcases List.mem_cons.mp hc with rfl | hc'
        · exact Or.inr hc0
        · exact ih rest y (by omega) hsp c hc'
      · rw [pySplit_cons_tok (by simpa using hc0)] at hsp
        simp only [List.cons.injEq] at hsp
        obtain ⟨hy, hrest⟩ := hsp
        rcases List.mem_cons.mp hc with rfl | hc'
        · exact Or.inl (by rw [← hy]; simp)
        · rw [← List.takeWhile_append_dropWhile (p := notWS) (l := rest)] at hc'
          rcases List.mem_append.mp hc' with h | h
          · refine Or.inl ?_
            rw [← hy]
            simp [h]
          · have hd := length_dropWhile_le notWS rest
            exact Or.inr (pySplit_eq_nil_ws n (rest.dropWhile notWS) (by omega)
              hrest c h)

theorem pySplit_two_infix : ∀ (n : Nat) {p0 : Char} {pr r m y : List Char},
    r.length ≤ n → (∀ c ∈ p0 :: pr, isAlphaC c = true) →
    (∀ c ∈ y, isDigitC c = true) → pySplit r = [m, y] →
    (p0 :: pr) <:+: r → (p0 :: pr) <:+: m := by
  intro n
  induction n with
  | zero =>
    intro p0 pr r m y h1 _ _ hsp _
    have : r = [] := List.eq_nil_of_length_eq_zero (Nat.le_zero.mp h1)
    subst this
    cases hsp
  | succ n ih =>
    intro p0 pr r m y h1 hpa hy hsp hsub
    cases r with
    | nil => cases hsp
    | cons c0 rest =>
      simp only [List.length_cons] at h1
      by_cases hc0 : isPyWS c0 = true
      · rw [pySplit_cons_ws hc0] at hsp
        rcases List.infix_cons_iff.mp hsub with h | h
        · exfalso
          have := (List.cons_prefix_cons.mp h).1
          subst this
          have := isPyWS_not_isAlphaC hc0
          rw [hpa p0 (by simp)] at this
          cases this
        · exact ih (by omega) hpa hy hsp h
      · rw [pySplit_cons_tok (by simpa using hc0)] at hsp
        simp only [List.cons.injEq] at hsp
        obtain ⟨hm, hrest⟩ := hsp
        have hrsplit : c0 :: rest =
            (c0 :: rest.takeWhile notWS) ++ rest.dropWhile notWS := by
          simp [List.takeWhile_append_dropWhile]
        rw [hrsplit] at hsub
        have hd := length_dropWhile_le notWS rest
        have hzs : ∀ c ∈ rest.dropWhile notWS, isAlphaC c = false := by
          intro c hc
          rcases pySplit_single_chars n (rest.dropWhile notWS) y (by omega)
            hrest c hc with h | h
          · exact isDigitC_not_isAlphaC (hy c h)
          · exact isPyWS_not_isAlphaC h
        have := infix_drop_right (by simp) hpa hzs hsub
        rw [hm] at this
        exact this

theorem pySplit_three_infix : ∀ (n : Nat) {p0 : Char} {pr l d m y : List Char},
    l.length ≤ n → (∀ c ∈ p0 :: pr, isAlphaC c = true) →
    (∀ c ∈ d, isDigitC c = true) → (∀ c ∈ y, isDigitC c = true) →
    pySplit l = [d, m, y] → (p0 :: pr) <:+: l → (p0 :: pr) <:+: m := by
  intro n
  induction n with
  | zero =>
    intro p0 pr l d m y h1 _ _ _ hsp _
    have : l = [] := List.eq_nil_of_length_eq_zero (Nat.le_zero.mp h1)
    subst this
    cases hsp
  | succ n ih =>
    intro p0 pr l d m y h1 hpa hd hy hsp hsub
    cases l with
    | nil => cases hsp
    | cons c0 rest =>
      simp only [List.length_cons] at h1
      by_cases hc0 : isPyWS c0 = true
      · rw [pySplit_cons_ws hc0] at hsp
        rcases List.infix_cons_iff.mp hsub with h | h
        · exfalso
          have := (List.cons_prefix_cons.mp h).1
          subst this
          have := isPyWS_not_isAlphaC hc0
          rw [hpa p0 (by simp)] at this
          cases this
        · exact ih (by omega) hpa hd hy hsp h
      · rw [pySplit_cons_tok (by simpa using hc0)] at hsp
        simp only [List.cons.injEq] at hsp
        obtain ⟨hdm, hrest⟩ := hsp
        have hrsplit : c0 :: rest =
            (c0 :: rest.takeWhile notWS) ++ rest.dropWhile notWS := by
          simp [List.takeWhile_append_dropWhile]
        rw [hrsplit] at hsub
        have hxs : ∀ c ∈ c0 :: rest.takeWhile notWS, isAlphaC c = false := by
          intro c hc
          apply isDigitC_not_isAlphaC
          apply hd
          rw [← hdm]
          exact hc
        have hp0 : isAlphaC p0 = true := hpa p0 (by simp)
        have hsub' := infix_drop_left hp0 hxs hsub
        have hdlen := length_dropWhile_le notWS rest
        exact pySplit_two_infix n (by omega) hpa hy hrest hsub'

/-! ### Edges of the replaced string -/

theorem headIsWS_append_left {a b : List Char} (ha : a ≠ []) :
    headIsWS (a ++ b) = headIsWS a := by
  cases a with
  | nil => exact absurd rfl ha
  | cons c t => rfl

theorem lastIsWS_append_right {a b : List Char} (ha : a ≠ []) :
    lastIsWS (b ++ a) = lastIsWS a := by
  unfold lastIsWS
  rw [List.reverse_append]
  exact headIsWS_append_left (by simpa using ha)

theorem lastIsWS_suffix_eq {s l : List Char} (h : s <:+ l) (hs : s ≠ []) :
    lastIsWS s = lastIsWS l := by
  obtain ⟨p, hp⟩ := h
  rw [← hp]
  exact (lastIsWS_append_right hs).symm

theorem headIsWS_replaceAll {p0 : Char} {pr rep l : List Char} (hrep : rep ≠ [])
    (hrw : ∀ c ∈ rep, isPyWS c = false) (hl : headIsWS l = false) :
    headIsWS (replaceAll (p0 :: pr) rep l) = false := by
  cases l with
  | nil => rfl
  | cons c rest =>
    by_cases hp : (p0 :: pr) <+: c :: rest
    · rw [replaceAll_cons_pos rep (by simp) hp]
      cases rep with
      | nil => exact absurd rfl hrep
      | cons r0 rt =>
        simp only [List.cons_append, headIsWS]
        exact hrw r0 (by simp)
    · rw [replaceAll_cons_neg rep hp]
      exact hl

theorem lastIsWS_replaceAll : ∀ (n : Nat) {p0 : Char} {pr rep l : List Char},
    l.length ≤ n → rep ≠ [] → (∀ c ∈ rep, isPyWS c = false) →
    lastIsWS l = false → lastIsWS (replaceAll (p0 :: pr) rep l) = false := by
  intro n
  induction n with
  | zero =>
    intro p0 pr rep l h1 _ _ _
    have : l = [] := List.eq_nil_of_length_eq_zero (Nat.le_zero.mp h1)
    subst this
    rfl
  | succ n ih =>
    intro p0 pr rep l h1 hrep hrw hl
    cases l with
    | nil => rfl
    | cons c rest =>
      simp only [List.length_cons] at h1
      by_cases hp : (p0 :: pr) <+: c :: rest
      · rw [replaceAll_cons_pos rep (by simp) hp]
        by_cases hdnil : (c :: rest).drop (p0 :: pr).length = []
        · rw [hdnil, replaceAll_nil, List.append_nil]
          rw [show rep = [] ++ rep from rfl]
          exact lastIsWS_of_tok hrep hrw
        · have hR : replaceAll (p0 :: pr) rep ((c :: rest).drop (p0 :: pr).length)
              ≠ [] := replaceAll_ne_nil hdnil hrep
          rw [lastIsWS_append_right hR]
          have hsuf : (c :: rest).drop (p0 :: pr).length <:+ c :: rest :=
            List.drop_suffix _ _
          have hlen : ((c :: rest).drop (p0 :: pr).length).length ≤ n := by
            simp only [List.length_drop, List.length_cons]
            omega
          exact ih hlen hrep hrw ((lastIsWS_suffix_eq hsuf hdnil).trans hl)
      · rw [replaceAll_cons_neg rep hp]
        cases rest with
        | nil =>
          rw [replaceAll_nil]
          exact hl
        | cons c1 rest1 =>
          have hR : replaceAll (p0 :: pr) rep (c1 :: rest1) ≠ [] :=
            replaceAll_ne_nil (by simp) hrep
          rw [show c :: replaceAll (p0 :: pr) rep (c1 :: rest1) =
            [c] ++ replaceAll (p0 :: pr) rep (c1 :: rest1) from rfl,
            lastIsWS_append_right hR]
          have hsuf : c1 :: rest1 <:+ c :: c1 :: rest1 := ⟨[c], rfl⟩
          exact ih (by omega) hrep hrw
            ((lastIsWS_suffix_eq hsuf (by simp)).trans hl)

/-! ### Concrete facts about the month tables (checked by computation) -/

/-- No Indonesian month name occurs inside a different one. -/
theorem indo_keys_pairwise : ∀ p ∈ INDONESIAN_MONTHS, ∀ q ∈ INDONESIAN_MONTHS,
    containsSub p.1 q.1 = true → p.1 = q.1 := by decide

/-- The Indonesian table is functional (keys determine values). -/
theorem indo_table_fn : ∀ p ∈ INDONESIAN_MONTHS, ∀ q ∈ INDONESIAN_MONTHS,
    p.1 = q.1 → p.2 = q.2 := by decide

/-- All Indonesian month names and their translations are alphabetic. -/
theorem indo_alpha : ∀ p ∈ INDONESIAN_MONTHS,
    (∀ c ∈ p.1, isAlphaC c = true) ∧ (∀ c ∈ p.2, isAlphaC c = true) := by decide

/-- An Indonesian month name is either not an English month name, or it is
one with the same month number as its translation (april/september/november). -/
theorem indo_overlap : ∀ p ∈ INDONESIAN_MONTHS,
    monthNum? p.1 = none ∨ monthNum? p.1 = monthNum? p.2 := by decide

/-- Each translation in the Indonesian table is an English month name. -/
theorem indo_eng_key : ∀ p ∈ INDONESIAN_MONTHS,
    (ENGLISH_MONTHS.lookup (p.2.map pyLower)).isSome = true := by decide

/-- No English month name occurs inside a different one. -/
theorem eng_keys_pairwise : ∀ a ∈ ENGLISH_MONTHS, ∀ b ∈ ENGLISH_MONTHS,
    containsSub a.1 b.1 = true → a.1 = b.1 := by decide

/-- No English month name strictly contains an Indonesian month name. -/
theorem no_eng_contains_indo : ∀ e ∈ ENGLISH_MONTHS, ∀ p ∈ INDONESIAN_MONTHS,
    containsSub p.1 e.1 = true → p.1 = e.1 := by decide

/-! ### Remaining small helpers for the parser equivalence -/

theorem mem_lowerL_fix {s : List Char} : ∀ c ∈ lowerL s, pyLower c = c := by
  intro c hc
  obtain ⟨a, _, rfl⟩ := List.mem_map.mp hc
  exact pyLower_pyLower a

theorem infix_lowerL_stable {m s : List Char} (h : m <:+: lowerL s) :
    m.map pyLower = m := by
  rw [show m.map pyLower = m.map id from
    List.map_congr_left (fun c hc => mem_lowerL_fix c (h.subset hc)), List.map_id]

theorem all_false_of_mem {P : Char → Bool} {l : List Char} {c : Char}
    (hc : c ∈ l) (h : P c = false) : l.all P = false := by
  rw [Bool.eq_false_iff]
  intro hT
  rw [List.all_eq_true] at hT
  rw [hT c hc] at h
  cases h

theorem buildDate_none_month {d m y : List Char} (h : monthNum? m = none) :
    buildDate d m y = none := by
  unfold buildDate
  rw [h]
  by_cases hc : (dayTokOk d && yearTokOk y) = true
  · rw [if_pos hc]
  · rw [if_neg hc]

theorem buildDate_none_day {d m y : List Char} (h : dayTokOk d = false) :
    buildDate d m y = none := by
  unfold buildDate
  rw [h]
  simp

theorem buildDate_none_year {d m y : List Char} (h : yearTokOk y = false) :
    buildDate d m y = none := by
  unfold buildDate
  rw [h]
  simp

theorem dayTokOk_false_of_alpha {d : List Char} {c : Char} (hc : c ∈ d)
    (ha : isAlphaC c = true) : dayTokOk d = false := by
  unfold dayTokOk
  rw [all_false_of_mem hc (isAlphaC_not_isDigitC ha)]
  simp

theorem yearTokOk_false_of_alpha {y : List Char} {c : Char} (hc : c ∈ y)
    (ha : isAlphaC c = true) : yearTokOk y = false := by
  unfold yearTokOk
  rw [all_false_of_mem hc (isAlphaC_not_isDigitC ha)]
  simp

theorem dayTokOk_false_of_not_all {d : List Char}
    (h : ¬ ∀ c ∈ d, isDigitC c = true) : dayTokOk d = false := by
  unfold dayTokOk
  have : d.all isDigitC = false := by
    rw [Bool.eq_false_iff]
    intro hT
    exact h (List.all_eq_true.mp hT)
  rw [this]
  simp

theorem yearTokOk_false_of_not_all {y : List Char}
    (h : ¬ ∀ c ∈ y, isDigitC c = true) : yearTokOk y = false := by
  unfold yearTokOk
  have : y.all isDigitC = false := by
    rw [Bool.eq_false_iff]
    intro hT
    exact h (List.all_eq_true.mp hT)
  rw [this]
  simp

/-- The two `parse_indonesian_date` implementations agree on every string
without leading or trailing whitespace.  (They disagree on, e.g.,
`" 31 Desember 2024"`: the participants version strips, the schedules
version does not.) -/
theorem parse_agree (s : List Char) (hh : headIsWS s = false)
    (hl : lastIsWS s = false) :
    InsertSchedules.parse_indonesian_date s =
      InsertParticipants.parse_indonesian_date s := by
  rw [parse1_characterization, stripL_eq_self hh hl]
  unfold InsertSchedules.parse_indonesian_date
  by_cases hse : s.isEmpty = true
  · rw [if_pos hse]
    have hnil : s = [] := by simpa using hse
    subst hnil
    rfl
  · rw [if_neg hse]
    show (match strptimeDMY (match INDONESIAN_MONTHS.find?
            (fun p => containsSub p.1 (lowerL s)) with
          | some (ind, eng) => replaceAll ind eng (lowerL s)
          | none => lowerL s) with
        | some r => some r
        | none => strptimeDMY s) = _
    have hlowh : headIsWS (lowerL s) = false := by
      rw [headIsWS_lowerL]; exact hh
    have hlowl : lastIsWS (lowerL s) = false := by
      rw [lastIsWS_lowerL]; exact hl
    have hprops := pySplit_tok_props (lowerL s)
    cases hfind : INDONESIAN_MONTHS.find? (fun p => containsSub p.1 (lowerL s)) with
    | none =>
      simp only [hfind]
      have hnonesub := List.find?_eq_none.mp hfind
      cases hsp : pySplit (lowerL s) with
      | nil =>
        have hnotl : strptimeDMY (lowerL s) = none :=
          strptimeDMY_not3 (by intro a b c h; rw [hsp] at h; cases h)
        rw [hnotl]
        show strptimeDMY s = none
        rw [← strptimeDMY_lowerL s]
        exact hnotl
      | cons d rest =>
        cases rest with
        | nil =>
          have hnotl : strptimeDMY (lowerL s) = none :=
            strptimeDMY_not3 (by intro a b c h; rw [hsp] at h; cases h)
          rw [hnotl]
          show strptimeDMY s = none
          rw [← strptimeDMY_lowerL s]
          exact hnotl
        | cons m rest2 =>
          cases rest2 with
          | nil =>
            have hnotl : strptimeDMY (lowerL s) = none :=
              strptimeDMY_not3 (by intro a b c h; rw [hsp] at h; cases h)
            rw [hnotl]
            show strptimeDMY s = none
            rw [← strptimeDMY_lowerL s]
            exact hnotl
          | cons y rest3 =>
            cases rest3 with
            | cons w rest4 =>
              have hnotl : strptimeDMY (lowerL s) = none :=
                strptimeDMY_not3 (by intro a b c h; rw [hsp] at h; cases h)
              rw [hnotl]
              show strptimeDMY s = none
              rw [← strptimeDMY_lowerL s]
              exact hnotl
            | nil =>
              rw [hsp] at hprops
              obtain ⟨-, -, hmsub⟩ := hprops m (by simp)
              have hlknone : INDONESIAN_MONTHS.lookup m = none := by
                cases hlk : INDONESIAN_MONTHS.lookup m with
                | none => rfl
                | some eng =>
                  exfalso
                  exact hnonesub (m, eng) (lookup_mem hlk)
                    (containsSub_iff.mpr hmsub)
              have hb : strptimeDMY (lowerL s) = buildDate d m y :=
                strptimeDMY_eq_buildDate hsp hlowh hlowl
              show _ = (match INDONESIAN_MONTHS.lookup m with
                        | some eng => buildDate d eng y
                        | none => buildDate d m y)
              rw [hb, hlknone]
              cases hbd : buildDate d m y with
              | some r => rfl
              | none =>
                show strptimeDMY s = none
                rw [← strptimeDMY_lowerL s, hb]
                exact hbd
    | some pe =>
      obtain ⟨ind, eng⟩ := pe
      simp only [hfind]
      have hmem : (ind, eng) ∈ INDONESIAN_MONTHS := List.mem_of_find?_eq_some hfind
      have hsubB : containsSub ind (lowerL s) = true := by
        have := List.find?_some hfind
        simpa using this
      have hindsub : ind <:+: lowerL s := containsSub_iff.mp hsubB
      obtain ⟨hindne, hindws, hengne, hengws⟩ := indo_table_clean (ind, eng) hmem
      obtain ⟨hindal, hengal⟩ := indo_alpha (ind, eng) hmem
      cases ind with
      | nil => exact absurd rfl hindne
      | cons i0 ir =>
        have hengwf : ∀ c ∈ eng, isPyWS c = false := hengws
        have hM : pySplit (replaceAll (i0 :: ir) eng (lowerL s)) =
            (pySplit (lowerL s)).map (replaceAll (i0 :: ir) eng) :=
          pySplit_replaceAll (lowerL s).length le_rfl hindws hengne hengwf
        cases hsp : pySplit (lowerL s) with
        | nil =>
          have hnotr : strptimeDMY (replaceAll (i0 :: ir) eng (lowerL s)) = none := by
            apply strptimeDMY_not3
            intro a b c hcon
            rw [hM, hsp] at hcon
            cases hcon
          have hnotl : strptimeDMY (lowerL s) = none :=
            strptimeDMY_not3 (by intro a b c h; rw [hsp] at h; cases h)
          rw [hnotr]
          show strptimeDMY s = none
          rw [← strptimeDMY_lowerL s]
          exact hnotl
        | cons d rest =>
          cases rest with
          | nil =>
            have hnotr : strptimeDMY (replaceAll (i0 :: ir) eng (lowerL s)) = none := by
              apply strptimeDMY_not3
              intro a b c hcon
              rw [hM, hsp] at hcon
              simp at hcon
            have hnotl : strptimeDMY (lowerL s) = none :=
              strptimeDMY_not3 (by intro a b c h; rw [hsp] at h; cases h)
            rw [hnotr]
            show strptimeDMY s = none
            rw [← strptimeDMY_lowerL s]
            exact hnotl
          | cons m rest2 =>
            cases rest2 with
            | nil =>
              have hnotr : strptimeDMY (replaceAll (i0 :: ir) eng (lowerL s)) = none := by
                apply strptimeDMY_not3
                intro a b c hcon
                rw [hM, hsp] at hcon
                simp at hcon
              have hnotl : strptimeDMY (lowerL s) = none :=
                strptimeDMY_not3 (by intro a b c h; rw [hsp] at h; cases h)
              rw [hnotr]
              show strptimeDMY s = none
              rw [← strptimeDMY_lowerL s]
              exact hnotl
            | cons y rest3 =>
              cases rest3 with
              | cons w rest4 =>
                have hnotr : strptimeDMY (replaceAll (i0 :: ir) eng (lowerL s)) = none := by
                  apply strptimeDMY_not3
                  intro a b c hcon
                  rw [hM, hsp] at hcon
                  simp at hcon
                have hnotl : strptimeDMY (lowerL s) = none :=
                  strptimeDMY_not3 (by intro a b c h; rw [hsp] at h; cases h)
                rw [hnotr]
                show strptimeDMY s = none
                rw [← strptimeDMY_lowerL s]
                exact hnotl
              | nil =>
                rw [hsp] at hprops
                obtain ⟨hdne, hdws, hdsub⟩ := hprops d (by simp)
                obtain ⟨hmne, hmws, hmsub⟩ := hprops m (by simp)
                obtain ⟨hyne, hyws, hysub⟩ := hprops y (by simp)
                have hmlow : m.map pyLower = m := infix_lowerL_stable hmsub
                have hb : strptimeDMY (lowerL s) = buildDate d m y :=
                  strptimeDMY_eq_buildDate hsp hlowh hlowl
                by_cases hdig : (∀ c ∈ d, isDigitC c = true) ∧
                    (∀ c ∈ y, isDigitC c = true)
                · -- day and year fields are (still possibly malformed) digit
                  -- strings, so the replacement acts on the month field only
                  have hdd : replaceAll (i0 :: ir) eng d = d := by
                    apply replaceAll_of_not_sub (by simp)
                    intro hcon
                    have hi0d : i0 ∈ d := hcon.subset (by simp)
                    have h1 := hdig.1 i0 hi0d
                    have h2 := isAlphaC_not_isDigitC (hindal i0 (by simp))
                    rw [h1] at h2
                    cases h2
                  have hyy : replaceAll (i0 :: ir) eng y = y := by
                    apply replaceAll_of_not_sub (by simp)
                    intro hcon
                    have hi0y : i0 ∈ y := hcon.subset (by simp)
                    have h1 := hdig.2 i0 hi0y
                    have h2 := isAlphaC_not_isDigitC (hindal i0 (by simp))
                    rw [h1] at h2
                    cases h2
                  have hindm : (i0 :: ir) <:+: m :=
                    pySplit_three_infix (lowerL s).length le_rfl hindal
                      hdig.1 hdig.2 hsp hindsub
                  have hspr : pySplit (replaceAll (i0 :: ir) eng (lowerL s)) =
                      [d, replaceAll (i0 :: ir) eng m, y] := by
                    rw [hM, hsp]
                    simp [hdd, hyy]
                  have hreph : headIsWS (replaceAll (i0 :: ir) eng (lowerL s))
                      = false := headIsWS_replaceAll hengne hengwf hlowh
                  have hrepl : lastIsWS (replaceAll (i0 :: ir) eng (lowerL s))
                      = false :=
                    lastIsWS_replaceAll (lowerL s).length le_rfl hengne hengwf hlowl
                  show _ = (match INDONESIAN_MONTHS.lookup m with
                            | some eng => buildDate d eng y
                            | none => buildDate d m y)
                  cases hlk : INDONESIAN_MONTHS.lookup m with
                  | some eng2 =>
                    have hmemm : (m, eng2) ∈ INDONESIAN_MONTHS := lookup_mem hlk
                    have hindeq : i0 :: ir = m :=
                      indo_keys_pairwise (i0 :: ir, eng) hmem (m, eng2) hmemm
                        (containsSub_iff.mpr hindm)
                    have hengeq : eng = eng2 :=
                      indo_table_fn (i0 :: ir, eng) hmem (m, eng2) hmemm hindeq
                    have hm' : replaceAll (i0 :: ir) eng m = eng := by
                      rw [← hindeq]
                      exact replaceAll_self (by simp)
                    have hstr : strptimeDMY (replaceAll (i0 :: ir) eng (lowerL s))
                        = buildDate d eng y := by
                      rw [strptimeDMY_eq_buildDate hspr hreph hrepl, hm']
                    rw [hstr, ← hengeq]
                    cases hbd : buildDate d eng y with
                    | some r =>
                      show some r = buildDate d eng y
                      exact hbd.symm
                    | none =>
                      show strptimeDMY s = buildDate d eng y
                      rw [← strptimeDMY_lowerL s, hb]
                      rcases indo_overlap (i0 :: ir, eng) hmem with hov | hov
                      · rw [show buildDate d m y = none from
                          buildDate_none_month (by rw [← hindeq]; exact hov), hbd]
                      · exact @buildDate_congr_month d m eng y
                          (by rw [← hindeq]; exact hov)
                  | none =>
                    have hmnind : i0 :: ir ≠ m := by
                      intro hcon
                      exact lookup_isSome_of_mem (hcon ▸ hmem) hlk
                    have hmn : monthNum? m = none := by
                      cases hq : monthNum? m with
                      | none => rfl
                      | some k =>
                        exfalso
                        unfold monthNum? at hq
                        rw [hmlow] at hq
                        have hmemE : (m, k) ∈ ENGLISH_MONTHS := lookup_mem hq
                        exact hmnind (no_eng_contains_indo (m, k) hmemE
                          (i0 :: ir, eng) hmem (containsSub_iff.mpr hindm))
                    have hmn' : monthNum? (replaceAll (i0 :: ir) eng m) = none := by
                      cases hq : monthNum? (replaceAll (i0 :: ir) eng m) with
                      | none => rfl
                      | some k =>
                        exfalso
                        obtain ⟨p, r, hmdec, hrdec⟩ :=
                          @replaceAll_first_occ m (i0 :: ir) eng (by simp) hindm
                        have hisk := indo_eng_key (i0 :: ir, eng) hmem
                        cases hE2 : ENGLISH_MONTHS.lookup (eng.map pyLower) with
                        | none => rw [hE2] at hisk; cases hisk
                        | some v =>
                          have hmemE2 : (eng.map pyLower, v) ∈ ENGLISH_MONTHS :=
                            lookup_mem hE2
                          unfold monthNum? at hq
                          have hmemE : ((replaceAll (i0 :: ir) eng m).map pyLower, k)
                              ∈ ENGLISH_MONTHS := lookup_mem hq
                          have hengsub : eng.map pyLower <:+:
                              (replaceAll (i0 :: ir) eng m).map pyLower := by
                            refine ⟨p.map pyLower,
                              (replaceAll (i0 :: ir) eng r).map pyLower, ?_⟩
                            rw [hrdec]
                            simp
                          have heq := eng_keys_pairwise (eng.map pyLower, v) hmemE2
                            ((replaceAll (i0 :: ir) eng m).map pyLower, k) hmemE
                            (containsSub_iff.mpr hengsub)
                          have hlen : (replaceAll (i0 :: ir) eng m).length
                              = eng.length := by
                            have := congrArg List.length heq
                            simpa using this.symm
                          rw [hrdec] at hlen
                          simp only [List.length_append] at hlen
                          have hp : p = [] :=
                            List.eq_nil_of_length_eq_zero (by omega)
                          have hR : replaceAll (i0 :: ir) eng r = [] :=
                            List.eq_nil_of_length_eq_zero (by omega)
                          have hr : r = [] := by
                            by_contra hrne
                            exact replaceAll_ne_nil hrne hengne hR
                          rw [hp, hr] at hmdec
                          simp at hmdec
                          exact hmnind hmdec.symm
                    have hstr : strptimeDMY (replaceAll (i0 :: ir) eng (lowerL s))
                        = none :=
                      strptimeDMY_none_of_buildDate_none hspr
                        (buildDate_none_month hmn')
                    rw [hstr]
                    show strptimeDMY s = buildDate d m y
                    rw [← strptimeDMY_lowerL s]
                    exact hb
                · -- a malformed day or year field: both parsers fail
                  have hbdany : ∀ X, buildDate d X y = none := by
                    intro X
                    rcases not_and_or.mp hdig with hnd | hny
                    · exact buildDate_none_day (dayTokOk_false_of_not_all hnd)
                    · exact buildDate_none_year (yearTokOk_false_of_not_all hny)
                  have hbR : buildDate (replaceAll (i0 :: ir) eng d)
                      (replaceAll (i0 :: ir) eng m)
                      (replaceAll (i0 :: ir) eng y) = none := by
                    rcases not_and_or.mp hdig with hnd | hny
                    · apply buildDate_none_day
                      by_cases hsubd : (i0 :: ir) <:+: d
                      · obtain ⟨p, r, hdec, hrdec⟩ :=
                          @replaceAll_first_occ d (i0 :: ir) eng (by simp) hsubd
                        cases eng with
                        | nil => exact absurd rfl hengne
                        | cons e0 et =>
                          apply dayTokOk_false_of_alpha (c := e0) _
                            (hengal e0 (by simp))
                          rw [hrdec]
                          simp
                      · rw [replaceAll_of_not_sub (by simp) hsubd]
                        exact dayTokOk_false_of_not_all hnd
                    · apply buildDate_none_year
                      by_cases hsuby : (i0 :: ir) <:+: y
                      · obtain ⟨p, r, hdec, hrdec⟩ :=
                          @replaceAll_first_occ y (i0 :: ir) eng (by simp) hsuby
                        cases eng with
                        | nil => exact absurd rfl hengne
                        | cons e0 et =>
                          apply yearTokOk_false_of_alpha (c := e0) _
                            (hengal e0 (by simp))
                          rw [hrdec]
                          simp
                      · rw [replaceAll_of_not_sub (by simp) hsuby]
                        exact yearTokOk_false_of_not_all hny
                  have hspr : pySplit (replaceAll (i0 :: ir) eng (lowerL s)) =
                      [replaceAll (i0 :: ir) eng d, replaceAll (i0 :: ir) eng m,
                       replaceAll (i0 :: ir) eng y] := by
                    rw [hM, hsp]
                    simp
                  have hstr : strptimeDMY (replaceAll (i0 :: ir) eng (lowerL s))
                      = none := strptimeDMY_none_of_buildDate_none hspr hbR
                  show _ = (match INDONESIAN_MONTHS.lookup m with
                            | some eng => buildDate d eng y
                            | none => buildDate d m y)
                  rw [hstr]
                  cases hlk : INDONESIAN_MONTHS.lookup m with
                  | some eng2 =>
                    show strptimeDMY s = buildDate d eng2 y
                    rw [← strptimeDMY_lowerL s, hb, hbdany m, hbdany eng2]
                  | none =>
                    show strptimeDMY s = buildDate d m y
                    rw [← strptimeDMY_lowerL s]
                    exact hb

/-! ### Month resolution and the shape of successful outputs -/

/-- Month resolution order of the participants parser: the Indonesian table
first, otherwise the token itself as an English `%B` name. -/
def monthResolve (m : List Char) : Option Nat :=
  match INDONESIAN_MONTHS.lookup m with
  | some eng => monthNum? eng
  | none => monthNum? m

/-- `buildDate` with the month already resolved to a number. -/
def buildDateR (d y : List Char) (mn : Nat) : Option (List Char) :=
  if dayTokOk d && yearTokOk y && decide (1 ≤ digitsToNat y)
      && decide (digitsToNat d ≤ daysInMonth (digitsToNat y) mn) then
    some (renderDate (digitsToNat y) mn (digitsToNat d))
  else none

theorem buildDate_via_num (d X y : List Char) :
    buildDate d X y =
      (match monthNum? X with
       | some mn => buildDateR d y mn
       | none => none) := by
  unfold buildDate buildDateR
  cases hq : monthNum? X with
  | none =>
    by_cases h : (dayTokOk d && yearTokOk y) = true
    · rw [if_pos h]
    · rw [if_neg h]
  | some mn =>
    by_cases h : (dayTokOk d && yearTokOk y) = true
    · rw [if_pos h]
      show (if 1 ≤ digitsToNat y ∧ digitsToNat d ≤ daysInMonth (digitsToNat y) mn
            then some (renderDate (digitsToNat y) mn (digitsToNat d)) else none) =
          (if (dayTokOk d && yearTokOk y && decide (1 ≤ digitsToNat y) &&
              decide (digitsToNat d ≤ daysInMonth (digitsToNat y) mn)) = true
           then some (renderDate (digitsToNat y) mn (digitsToNat d)) else none)
      by_cases h2 : (1 ≤ digitsToNat y ∧
          digitsToNat d ≤ daysInMonth (digitsToNat y) mn)
      · have hcond : (dayTokOk d && yearTokOk y && decide (1 ≤ digitsToNat y) &&
            decide (digitsToNat d ≤ daysInMonth (digitsToNat y) mn)) = true := by
          rw [Bool.and_eq_true, Bool.and_eq_true]
          exact ⟨⟨h, by simpa using h2.1⟩, by simpa using h2.2⟩
        rw [if_pos h2, if_pos hcond]
      · have hcond : (dayTokOk d && yearTokOk y && decide (1 ≤ digitsToNat y) &&
            decide (digitsToNat d ≤ daysInMonth (digitsToNat y) mn)) = false := by
          apply Bool.eq_false_iff.mpr
          intro hT
          simp only [Bool.and_eq_true, decide_eq_true_eq] at hT
          exact h2 ⟨hT.1.2, hT.2⟩
        rw [if_neg h2, if_neg (by simp [hcond])]
    · rw [if_neg h]
      show (none : Option (List Char)) =
          (if (dayTokOk d && yearTokOk y && decide (1 ≤ digitsToNat y) &&
              decide (digitsToNat d ≤ daysInMonth (digitsToNat y) mn)) = true
           then some (renderDate (digitsToNat y) mn (digitsToNat d)) else none)
      have hcond : (dayTokOk d && yearTokOk y && decide (1 ≤ digitsToNat y) &&
          decide (digitsToNat d ≤ daysInMonth (digitsToNat y) mn)) = false := by
        apply Bool.eq_false_iff.mpr
        intro hT
        simp only [Bool.and_eq_true, decide_eq_true_eq] at hT
        exact h (by rw [Bool.and_eq_true]; exact ⟨hT.1.1.1, hT.1.1.2⟩)
      rw [if_neg (by simp [hcond])]

/-- Full characterization of the participants date parser through
`monthResolve`. -/
theorem parse1_full (s : List Char) :
    InsertParticipants.parse_indonesian_date s =
      (match pySplit (lowerL (stripL s)) with
       | [d, m, y] =>
         (match monthResolve m with
          | some mn => buildDateR d y mn
          | none => none)
       | _ => none) := by
  rw [parse1_characterization]
  cases hsp : pySplit (lowerL (stripL s)) with
  | nil => rfl
  | cons d rest =>
    cases rest with
    | nil => rfl
    | cons m rest2 =>
      cases rest2 with
      | nil => rfl
      | cons y rest3 =>
        cases rest3 with
        | cons w rest4 => rfl
        | nil =>
          unfold monthResolve
          cases hlk : INDONESIAN_MONTHS.lookup m with
          | some eng =>
            simp only [hlk]
            exact buildDate_via_num d eng y
          | none =>
            simp only [hlk]
            exact buildDate_via_num d m y

theorem digitChar_digit {n : Nat} (h : n < 10) : isDigitC (digitChar n) = true := by
  interval_cases n <;> decide

theorem natToCharsF_digits : ∀ (fuel n : Nat), n < fuel →
    ∀ c ∈ natToCharsF fuel n, isDigitC c = true := by
  intro fuel
  induction fuel with
  | zero => intro n h; omega
  | succ f ih =>
    intro n h c hc
    simp only [natToCharsF] at hc
    by_cases h10 : n < 10
    · rw [if_pos h10] at hc
      simp only [List.mem_singleton] at hc
      subst hc
      exact digitChar_digit h10
    · rw [if_neg h10] at hc
      rcases List.mem_append.mp hc with h' | h'
      · have hdiv : n / 10 < f := by
          have := Nat.div_lt_self (by omega : 0 < n) (by omega : 1 < 10)
          omega
        exact ih (n / 10) hdiv c h'
      · simp only [List.mem_singleton] at h'
        subst h'
        exact digitChar_digit (Nat.mod_lt n (by omega))

theorem natToChars_digits (n : Nat) : ∀ c ∈ natToChars n, isDigitC c = true :=
  natToCharsF_digits (n + 1) n (by omega)

theorem natToChars_ne_nil (n : Nat) : natToChars n ≠ [] := by
  unfold natToChars natToCharsF
  by_cases h10 : n < 10
  · rw [if_pos h10]
    simp
  · rw [if_neg h10]
    simp

theorem pad2_digits (n : Nat) : ∀ c ∈ pad2 n, isDigitC c = true := by
  unfold pad2
  by_cases h : n < 10
  · rw [if_pos h]
    intro c hc
    rcases List.mem_cons.mp hc with rfl | hc'
    · decide
    · exact natToChars_digits n c hc'
  · rw [if_neg h]
    exact natToChars_digits n

/-- Characters of a rendered date: decimal digits and dashes only; in
particular no whitespace, and lower-casing leaves them unchanged. -/
theorem renderDate_chars (yv mn dv : Nat) : ∀ c ∈ renderDate yv mn dv,
    isPyWS c = false ∧ pyLower c = c := by
  intro c hc
  unfold renderDate at hc
  have hdig_or : isDigitC c = true ∨ c = '-' := by
    rcases List.mem_append.mp hc with h | h
    · exact Or.inl (natToChars_digits yv c h)
    · rcases List.mem_cons.mp h with rfl | h'
      · exact Or.inr rfl
      · rcases List.mem_append.mp h' with h2 | h2
        · exact Or.inl (pad2_digits mn c h2)
        · rcases List.mem_cons.mp h2 with rfl | h3
          · exact Or.inr rfl
          · exact Or.inl (pad2_digits dv c h3)
  rcases hdig_or with h | rfl
  · exact ⟨isDigitC_not_isPyWS h, pyLower_fix_digit h⟩
  · exact ⟨by decide, by decide⟩

theorem renderDate_ne_nil (yv mn dv : Nat) : renderDate yv mn dv ≠ [] := by
  unfold renderDate
  simp only [ne_eq, List.append_eq_nil, not_and]
  intro h
  exact absurd h (natToChars_ne_nil yv)

theorem buildDate_some_shape {d m y r : List Char} (h : buildDate d m y = some r) :
    ∃ yv mn dv, r = renderDate yv mn dv := by
  unfold buildDate at h
  by_cases hc : (dayTokOk d && yearTokOk y) = true
  · rw [if_pos hc] at h
    cases hq : monthNum? m with
    | none => rw [hq] at h; cases h
    | some mn =>
      rw [hq] at h
      replace h : (if 1 ≤ digitsToNat y ∧
          digitsToNat d ≤ daysInMonth (digitsToNat y) mn then
          some (renderDate (digitsToNat y) mn (digitsToNat d)) else none)
          = some r := h
      by_cases h2 : (1 ≤ digitsToNat y ∧
          digitsToNat d ≤ daysInMonth (digitsToNat y) mn)
      · rw [if_pos h2] at h
        exact ⟨digitsToNat y, mn, digitsToNat d,
          (Option.some.injEq _ _ ▸ h).symm⟩
      · rw [if_neg h2] at h
        cases h
  · rw [if_neg hc] at h
    cases h

/-- A successful output of the participants parser is never itself parseable:
it has no whitespace, so it splits into a single field and `"%d %B %Y"`
cannot match. -/
theorem parse1_reparse_none {s r : List Char}
    (h : InsertParticipants.parse_indonesian_date s = some r) :
    InsertParticipants.parse_indonesian_date r = none := by
  have hshape : ∃ yv mn dv, r = renderDate yv mn dv := by
    rw [parse1_characterization] at h
    cases hsp : pySplit (lowerL (stripL s)) with
    | nil => rw [hsp] at h; cases h
    | cons d rest =>
      cases rest with
      | nil => rw [hsp] at h; cases h
      | cons m rest2 =>
        cases rest2 with
        | nil => rw [hsp] at h; cases h
        | cons y rest3 =>
          cases rest3 with
          | cons w rest4 => rw [hsp] at h; cases h
          | nil =>
            rw [hsp] at h
            replace h : (match INDONESIAN_MONTHS.lookup m with
                | some eng => buildDate d eng y
                | none => buildDate d m y) = some r := h
            cases hlk : INDONESIAN_MONTHS.lookup m with
            | some eng =>
              rw [hlk] at h
              exact buildDate_some_shape h
            | none =>
              rw [hlk] at h
              exact buildDate_some_shape h
  obtain ⟨yv, mn, dv, rfl⟩ := hshape
  have hne := renderDate_ne_nil yv mn dv
  have hchars := renderDate_chars yv mn dv
  have hwsf : ∀ c ∈ renderDate yv mn dv, isPyWS c = false :=
    fun c hc => (hchars c hc).1
  have hhead : headIsWS (renderDate yv mn dv) = false := by
    cases hr : renderDate yv mn dv with
    | nil => rfl
    | cons c t =>
      show isPyWS c = false
      exact hwsf c (by rw [hr]; simp)
  have hlast : lastIsWS (renderDate yv mn dv) = false := by
    unfold lastIsWS
    cases hr : (renderDate yv mn dv).reverse with
    | nil => rfl
    | cons c t =>
      show isPyWS c = false
      apply hwsf
      rw [← List.mem_reverse, hr]
      simp
  rw [parse1_characterization, stripL_eq_self hhead hlast]
  have hlfix : lowerL (renderDate yv mn dv) = renderDate yv mn dv := by
    unfold lowerL
    rw [show (renderDate yv mn dv).map pyLower = (renderDate yv mn dv).map id from
      List.map_congr_left (fun c hc => (hchars c hc).2), List.map_id]
  rw [hlfix]
  rw [show renderDate yv mn dv = renderDate yv mn dv ++ [] from
    (List.append_nil _).symm, pySplit_tok_append hne hwsf (by rfl)]
  rw [pySplit_nil]

/-! ### `insert_programs.py` -/

namespace InsertPrograms

/-- `CATEGORY_IDS` from `config.py`. -/
def CATEGORY_IDS : List (List Char × Nat) :=
  [("Engineering".data, 1), ("Accounting".data, 2), ("Construction".data, 3),
   ("Management".data, 4), ("IT".data, 5), ("Communication".data, 6),
   ("Academic".data, 7), ("HR".data, 8), ("Leadership".data, 9),
   ("Forum".data, 10), ("Certification".data, 11), ("TestPrep".data, 12),
   ("Webinar".data, 13), ("GenZ".data, 14)]

/-- Is position `i` of `name` a word character?  Out-of-range positions count
as non-word (this is how the regex `\b` treats the string edges). -/
def wordAt (name : List Char) (i : Nat) : Bool :=
  match name.get? i with
  | some c => isWordC c
  | none => false

/-- Is there a `\b` boundary at position `i` (between `name[i-1]` and
`name[i]`)? -/
def boundaryAt (name : List Char) (i : Nat) : Bool :=
  (if i = 0 then false else wordAt name (i - 1)) != wordAt name i

/-- `re.search(rf"\b{re.escape(keyword)}\b", name)`: the escaped keyword is a
literal, so the regex matches iff the keyword occurs at some position with a
word boundary on each side. -/
def reSearchWord (kw name : List Char) : Bool :=
  (List.range (name.length + 1)).any fun i =>
    boundaryAt name i && ((name.drop i).take kw.length == kw) &&
      boundaryAt name (i + kw.length)

/-- `predict_category` of `insert_programs.py`.  Iterates the rules in
order; the first category with a matching keyword wins; otherwise
`("Uncategorized", None)`.  The category id comes from the global
`CATEGORY_IDS`. -/
def predict_category (name : List Char) (rules : List (List Char × List (List Char))) :
    List Char × Option Nat :=
  match rules with
  | [] => ("Uncategorized".data, none)
  | (category, keywords) :: rest =>
    if keywords.any (fun kw => reSearchWord kw name) then
      (category, CATEGORY_IDS.lookup category)
    else predict_category name rest

/-- One row of the dry-run/decision report. -/
structure ProgramReportItem where
  program_name : List Char
  status : String
  predicted_category : List Char
  predicted_category_id : Option Nat
  action : String
  slug : List Char
  deriving DecidableEq, Repr

/-- The per-candidate decision of `process_programs`.  `slugify` is an
external library (not part of this repository); it is passed in as the
collaborator function `slugf`. -/
def programDecision (slugf : List Char → List Char)
    (existing_programs : List Char → Bool)
    (rules : List (List Char × List (List Char)))
    (program_name : List Char) : ProgramReportItem :=
  let normalized_name := lowerL (stripL program_name)
  if existing_programs normalized_name then
    { program_name := program_name, status := "Exists",
      predicted_category := "N/A".data, predicted_category_id := none,
      action := "Skip", slug := slugf (stripL program_name) }
  else
    let pc := predict_category normalized_name rules
    { program_name := program_name, status := "New",
      predicted_category := pc.1,
      predicted_category_id :=
        if pc.1 = "Uncategorized".data then none else pc.2,
      action := "Insert", slug := slugf (stripL program_name) }

/-- `process_programs`: one decision per candidate, in order.  The
`category_ids` parameter of the Python function is unused (the classifier
reads the global table), which the model preserves. -/
def process_programs (slugf : List Char → List Char)
    (new_programs : List (List Char)) (existing_programs : List Char → Bool)
    (rules : List (List Char × List (List Char)))
    (_category_ids : List (List Char × Nat)) : List ProgramReportItem :=
  new_programs.map (programDecision slugf existing_programs rules)

/-- `generate_sql_script` of `insert_programs.py`, as its list of lines
(the file writes `"\n".join`-style lines).  `ts` stands for the
`pd.Timestamp.now()` header text, an external input. -/
def generate_sql_script (programs_to_insert : List ProgramReportItem)
    (output_path_hint ts : List Char) : List (List Char) :=
  ["-- Generated by certificates-data-entry-tools".data,
   "-- Date: ".data ++ ts,
   "-- Output target: ".data ++ output_path_hint,
   "START TRANSACTION;".data,
   [] ] ++
  (programs_to_insert.foldr (fun p acc =>
    if p.action ≠ "Insert" ∨ p.predicted_category_id = none then acc
    else
      ("-- New Program: ".data ++ p.program_name ++ " (".data ++
        p.predicted_category ++ ")".data) ::
      ("INSERT INTO programs (id_category, created_at, updated_at) VALUES (".data
        ++ natToChars (p.predicted_category_id.getD 0) ++ ", NOW(), NOW());".data) ::
      "SET @last_prog_id = LAST_INSERT_ID();".data ::
      ("INSERT INTO program_translations (id_program, language_code, name, slug, description, created_at, updated_at) VALUES (@last_prog_id, 'id', '".data
        ++ replaceAll ['\''] "''".data p.program_name ++ "', '".data ++ p.slug
        ++ "', '-', NOW(), NOW());".data) ::
      [] :: acc) []) ++
  ["COMMIT;".data]

end InsertPrograms

/-! ### `insert_schedules.py` — CSV processing, grouping and decisions -/

namespace InsertSchedules

/-- A raw CSV row as `process_csv_data` sees it (the three columns it
reads, already extracted by the `csv.DictReader` collaborator;
`row.get(col, "")` yields `""` for a missing column). -/
structure RawRow where
  program : List Char
  start_date : List Char
  end_date : List Char
  deriving DecidableEq, Repr

instance : Inhabited RawRow := ⟨⟨[], [], []⟩⟩

/-- `process_csv_data`: strip the three fields and keep only rows where all
three are non-empty — rows with a missing required field are dropped here
and never reach the reconciler. -/
def process_csv_data (rows : List RawRow) : List RawRow :=
  (rows.map (fun r =>
    { program := stripL r.program, start_date := stripL r.start_date,
      end_date := stripL r.end_date })).filter
    (fun r => !r.program.isEmpty && !r.start_date.isEmpty && !r.end_date.isEmpty)

/-- Raw grouping key: the (program, start-date) strings as they appear. -/
def rowKey (r : RawRow) : List Char × List Char := (r.program, r.start_date)

/-- `group_csv_data`: insertion-ordered dict keyed by the raw (program,
start-date) pair; the first row per key wins, later rows are ignored. -/
def groupGo (acc : List ((List Char × List Char) × RawRow)) :
    List RawRow → List ((List Char × List Char) × RawRow)
  | [] => acc
  | r :: rest =>
    if (acc.map Prod.fst).contains (rowKey r) then groupGo acc rest
    else groupGo (acc ++ [(rowKey r, r)]) rest

def group_csv_data (rows : List RawRow) : List ((List Char × List Char) × RawRow) :=
  groupGo [] rows

/-- One row of the schedule report. -/
structure ScheduleReportItem where
  program_name : List Char
  start_date : List Char
  end_date : List Char
  program_id : Option Nat
  category_id : Option Nat
  status : String
  action : String
  deriving DecidableEq, Repr

/-- `normalize_program_name` is the identity (its map was removed): it
returns `""` for falsy input and the name unchanged otherwise. -/
def normalize_program_name (program_name : List Char) : List Char :=
  if program_name.isEmpty then [] else program_name

/-- The decision for one grouped (program, start-date) entry of
`process_schedules`. -/
def scheduleDecision (programs_data : List Char → Option (Nat × Nat))
    (existing_schedules : Nat × List Char → Bool)
    (g : (List Char × List Char) × RawRow) : ScheduleReportItem :=
  let normalized_name := normalize_program_name g.1.1
  let program_key := lowerL normalized_name
  let start_date := parse_indonesian_date g.1.2
  let end_date := parse_indonesian_date g.2.end_date
  if start_date = none ∨ end_date = none then
    { program_name := normalized_name, start_date := start_date.getD [],
      end_date := end_date.getD [], program_id := none, category_id := none,
      status := "Invalid Date", action := "Skip" }
  else
    match programs_data program_key with
    | none =>
      { program_name := normalized_name, start_date := start_date.getD [],
        end_date := end_date.getD [], program_id := none, category_id := none,
        status := "Program Not Found", action := "Skip" }
    | some (pid, cid) =>
      if existing_schedules (pid, start_date.getD []) then
        { program_name := normalized_name, start_date := start_date.getD [],
          end_date := end_date.getD [], program_id := some pid,
          category_id := some cid, status := "Exists", action := "Skip" }
      else
        { program_name := normalized_name, start_date := start_date.getD [],
          end_date := end_date.getD [], program_id := some pid,
          category_id := some cid, status := "New", action := "Insert" }

/-- `process_schedules`: one report item per group, in group order. -/
def process_schedules (grouped_data : List ((List Char × List Char) × RawRow))
    (programs_data : List Char → Option (Nat × Nat))
    (existing_schedules : Nat × List Char → Bool) : List ScheduleReportItem :=
  grouped_data.map (scheduleDecision programs_data existing_schedules)

/-- `generate_sql_script` of `insert_schedules.py`, as its list of lines.
`ts` is the `datetime.now()` header text. -/
def generate_sql_script (schedules_to_insert : List ScheduleReportItem)
    (output_path_hint ts : List Char) : List (List Char) :=
  ["-- Generated by certificates-data-entry-tools".data,
   "-- Date: ".data ++ ts,
   "-- Output target: ".data ++ output_path_hint,
   "START TRANSACTION;".data,
   [] ] ++
  (schedules_to_insert.foldr (fun s acc =>
    if s.action ≠ "Insert" then acc
    else
      ("-- New Schedule: ".data ++ s.program_name ++ " (".data ++ s.start_date
        ++ " to ".data ++ s.end_date ++ ")".data) ::
      ("INSERT INTO schedules (id_program, id_category, date_start, date_end, time_start, time_end, created_at, updated_at) VALUES (".data
        ++ natToChars (s.program_id.getD 0) ++ ", ".data
        ++ natToChars (s.category_id.getD 0) ++ ", '".data ++ s.start_date
        ++ "', '".data ++ s.end_date ++ "', NULL, NULL, NOW(), NOW());".data) ::
      [] :: acc) []) ++
  ["COMMIT;".data]

end InsertSchedules

/-! ### `insert_participants.py` — `generate_sql` -/

namespace InsertParticipants

/-- One CSV row of the participants input (the five columns `generate_sql`
reads, as strings). -/
structure PRow where
  nama : List Char
  program : List Char
  tanggal_mulai : List Char
  no : List Char
  ket : List Char
  tanggal_sertifikat : List Char
  deriving DecidableEq, Repr

/-- One row of the participant report. -/
structure ParticipantReportItem where
  participant_name : List Char
  program_name : List Char
  schedule_start_date : List Char
  certificate_ref : List Char
  certificate_issue_date : List Char
  status : String
  action : String
  deriving DecidableEq, Repr

/-- The certificate reference of a row: `f"{no}{ket}" if no and ket else
ket` on the stripped columns.  Note the `else` arm returns `ket` even when
only `no` is non-empty. -/
def certificateRef (no_value ket_value : List Char) : List Char :=
  if ¬ no_value.isEmpty ∧ ¬ ket_value.isEmpty then no_value ++ ket_value
  else ket_value

/-- The key a row is checked against in `existing_participants`, when the
row resolves that far: `(schedule_id, participant_name.lower())`.  Returns
`none` when resolution stops earlier (invalid date, program or schedule not
found — including the `if not schedule_id` treatment of a 0 id). -/
def resolveKey (programs_map : List Char → Option (Nat × Nat))
    (schedules_map : Nat × List Char → Option Nat) (row : PRow) :
    Option (Nat × List Char) :=
  match parse_indonesian_date row.tanggal_mulai with
  | none => none
  | some sched_date =>
    match programs_map (lowerL (stripL row.program)) with
    | none => none
    | some (pid, _) =>
      match schedules_map (pid, sched_date) with
      | none => none
      | some sid =>
        if sid = 0 then none
        else some (sid, lowerL (stripL row.nama))

/-- The report item `generate_sql` produces for one row. -/
def rowReport (programs_map : List Char → Option (Nat × Nat))
    (schedules_map : Nat × List Char → Option Nat)
    (existing_participants : Nat × List Char → Bool)
    (row : PRow) : ParticipantReportItem :=
  let participant_name := stripL row.nama
  let program_name := stripL row.program
  let schedule_start_date := parse_indonesian_date row.tanggal_mulai
  let certificate_ref := certificateRef (stripL row.no) (stripL row.ket)
  let certificate_issue_date := parse_indonesian_date row.tanggal_sertifikat
  let base : ParticipantReportItem :=
    { participant_name := participant_name, program_name := program_name,
      schedule_start_date := schedule_start_date.getD "N/A".data,
      certificate_ref := certificate_ref,
      certificate_issue_date := certificate_issue_date.getD "N/A".data,
      status := "Pending", action := "N/A" }
  match schedule_start_date with
  | none =>
    { base with status := "Skipped", action := "Invalid schedule start date" }
  | some sched_date =>
    match programs_map (lowerL program_name) with
    | none =>
      { base with
      status := "Not Found"
      action := "Program not found in master data" }
    | some (pid, _) =>
      match schedules_map (pid, sched_date) with
      | none =>
        { base with
        status := "Not Found"
        action := "Schedule not found for this program and date" }
      | some sid =>
        if sid = 0 then
          { base with
            status := "Not Found"
            action := "Schedule not found for this program and date" }
        else if existing_participants (sid, lowerL participant_name) then
          { base with
            status := "Skipped"
            action := "Participant already exists for this schedule" }
        else
          { base with
            status := "To Be Inserted"
            action := "Participant and Certificate records generated" }

/-- The SQL lines `generate_sql` emits for one row (empty unless the row is
to be inserted). -/
def rowSql (programs_map : List Char → Option (Nat × Nat))
    (schedules_map : Nat × List Char → Option Nat)
    (existing_participants : Nat × List Char → Bool)
    (row : PRow) : List (List Char) :=
  match parse_indonesian_date row.tanggal_mulai with
  | none => []
  | some sched_date =>
    match programs_map (lowerL (stripL row.program)) with
    | none => []
    | some (pid, cid) =>
      match schedules_map (pid, sched_date) with
      | none => []
      | some sid =>
        if sid = 0 then []
        else if existing_participants (sid, lowerL (stripL row.nama)) then []
        else
          let escaped_name := replaceAll ['\''] "''".data (stripL row.nama)
          let escaped_ref := replaceAll ['\''] "''".data
            (certificateRef (stripL row.no) (stripL row.ket))
          let escaped_prog := replaceAll ['\''] "''".data (stripL row.program)
          let issued_at :=
            match parse_indonesian_date row.tanggal_sertifikat with
            | none => "NULL".data
            | some dt => '\'' :: (dt ++ ['\''])
          [("INSERT INTO participants (id_schedule, id_program, id_category, name, created_at) VALUES (".data
              ++ natToChars sid ++ ", ".data ++ natToChars pid ++ ", ".data
              ++ natToChars cid ++ ", '".data ++ escaped_name
              ++ "', NOW());".data),
           "SET @last_part_id = LAST_INSERT_ID();".data,
           ("INSERT INTO certificates (id_participant, reference_number, nama_program, issued_at, created_at) VALUES (@last_part_id, '".data
              ++ escaped_ref ++ "', '".data ++ escaped_prog ++ "', ".data
              ++ issued_at ++ ", NOW());".data)]

/-- The summary item appended at the end of the report. -/
def summaryItem (rows : List PRow)
    (programs_map : List Char → Option (Nat × Nat))
    (schedules_map : Nat × List Char → Option Nat)
    (existing_participants : Nat × List Char → Bool) : ParticipantReportItem :=
  let items := rows.map (rowReport programs_map schedules_map existing_participants)
  { participant_name := "--- SUMMARY ---".data,
    program_name := "Processed: ".data ++ natToChars rows.length,
    schedule_start_date := "Inserted: ".data
      ++ natToChars (items.countP (fun i => i.status = "To Be Inserted")),
    certificate_ref := "Skipped: ".data
      ++ natToChars (items.countP (fun i => i.status = "Skipped")),
    certificate_issue_date := "Not Found: ".data
      ++ natToChars (items.countP (fun i => i.status = "Not Found")),
    status := "Complete", action := "SQL Generation Finished" }

/-- `generate_sql`: the SQL script (as its list of statement lines) and the
report, one item per row plus the summary. -/
def generate_sql (rows : List PRow)
    (programs_map : List Char → Option (Nat × Nat))
    (schedules_map : Nat × List Char → Option Nat)
    (existing_participants : Nat × List Char → Bool) :
    List (List Char) × List ParticipantReportItem :=
  ("START TRANSACTION;".data ::
     (rows.foldr (fun r acc =>
        rowSql programs_map schedules_map existing_participants r ++ acc) [])
     ++ ["COMMIT;".data],
   rows.map (rowReport programs_map schedules_map existing_participants)
     ++ [summaryItem rows programs_map schedules_map existing_participants])

end InsertParticipants

/-! ### Support lemmas: classifier -/

namespace InsertPrograms

theorem predict_category_no_match {name : List Char} :
    ∀ {rules : List (List Char × List (List Char))},
    (∀ r ∈ rules, ∀ kw ∈ r.2, reSearchWord kw name = false) →
    predict_category name rules = ("Uncategorized".data, none) := by
  intro rules
  induction rules with
  | nil => intro _; rfl
  | cons r rest ih =>
    intro h
    obtain ⟨cat, kws⟩ := r
    unfold predict_category
    have hany : (kws.any fun kw => reSearchWord kw name) = false := by
      rw [Bool.eq_false_iff]
      intro hT
      obtain ⟨kw, hkw, hm⟩ := List.any_eq_true.mp hT
      rw [h (cat, kws) (by simp) kw hkw] at hm
      cases hm
    rw [hany]
    simp only [Bool.false_eq_true, if_false]
    exact ih (fun q hq kw hkw => h q (by simp [hq]) kw hkw)

theorem predict_category_first {name : List Char} :
    ∀ {pre : List (List Char × List (List Char))}
      {cat : List Char} {kws : List (List Char)}
      {post : List (List Char × List (List Char))},
    (∀ r ∈ pre, ∀ kw ∈ r.2, reSearchWord kw name = false) →
    (∃ kw ∈ kws, reSearchWord kw name = true) →
    predict_category name (pre ++ (cat, kws) :: post) =
      (cat, CATEGORY_IDS.lookup cat) := by
  intro pre
  induction pre with
  | nil =>
    intro cat kws post _ hm
    unfold predict_category
    have hany : (kws.any fun kw => reSearchWord kw name) = true := by
      rw [List.any_eq_true]
      obtain ⟨kw, hkw, h⟩ := hm
      exact ⟨kw, hkw, h⟩
    rw [List.nil_append]
    show (if kws.any fun kw => reSearchWord kw name then
      (cat, CATEGORY_IDS.lookup cat) else predict_category name post) = _
    rw [hany, if_pos rfl]
  | cons r pre' ih =>
    intro cat kws post hpre hm
    obtain ⟨cat0, kws0⟩ := r
    rw [List.cons_append]
    unfold predict_category
    have hany : (kws0.any fun kw => reSearchWord kw name) = false := by
      rw [Bool.eq_false_iff]
      intro hT
      obtain ⟨kw, hkw, h⟩ := List.any_eq_true.mp hT
      rw [hpre (cat0, kws0) (by simp) kw hkw] at h
      cases h
    rw [hany]
    simp only [Bool.false_eq_true, if_false]
    exact ih (fun q hq kw hkw => hpre q (by simp [hq]) kw hkw) hm

theorem programDecision_of_member {slugf : List Char → List Char}
    {existing : List Char → Bool} {rules : List (List Char × List (List Char))}
    {name : List Char} (h : existing (lowerL (stripL name)) = true) :
    (programDecision slugf existing rules name).status = "Exists" ∧
    (programDecision slugf existing rules name).action = "Skip" := by
  unfold programDecision
  simp only [h, eq_self_iff_true, if_true]
  refine ⟨?_, ?_⟩ <;> trivial

theorem programDecision_of_new {slugf : List Char → List Char}
    {existing : List Char → Bool} {rules : List (List Char × List (List Char))}
    {name : List Char} (h : existing (lowerL (stripL name)) = false) :
    (programDecision slugf existing rules name).status = "New" ∧
    (programDecision slugf existing rules name).action = "Insert" ∧
    (programDecision slugf existing rules name).predicted_category =
      (predict_category (lowerL (stripL name)) rules).1 ∧
    (programDecision slugf existing rules name).predicted_category_id =
      (if (predict_category (lowerL (stripL name)) rules).1 = "Uncategorized".data
       then none else (predict_category (lowerL (stripL name)) rules).2) := by
  unfold programDecision
  simp only [h, Bool.false_eq_true, if_false]
  refine ⟨?_, ?_, ?_, ?_⟩ <;> trivial

end InsertPrograms

/-! ### Support lemmas: schedule grouping -/

namespace InsertSchedules

theorem groupGo_acc_sub : ∀ (rows : List RawRow)
    (acc : List ((List Char × List Char) × RawRow)) (p : _ × _),
    p ∈ acc → p ∈ groupGo acc rows := by
  intro rows
  induction rows with
  | nil => intro acc p hp; exact hp
  | cons r rest ih =>
    intro acc p hp
    unfold groupGo
    by_cases hc : ((acc.map Prod.fst).contains (rowKey r)) = true
    · rw [if_pos hc]
      exact ih acc p hp
    · rw [if_neg hc]
      exact ih _ p (by simp [hp])

theorem groupGo_keys_mono : ∀ (rows : List RawRow)
    (acc : List ((List Char × List Char) × RawRow)) (k : List Char × List Char),
    k ∈ acc.map Prod.fst → k ∈ (groupGo acc rows).map Prod.fst := by
  intro rows acc k hk
  obtain ⟨p, hp, rfl⟩ := List.mem_map.mp hk
  exact List.mem_map.mpr ⟨p, groupGo_acc_sub rows acc p hp, rfl⟩

theorem groupGo_nodup : ∀ (rows : List RawRow)
    (acc : List ((List Char × List Char) × RawRow)),
    (acc.map Prod.fst).Nodup → ((groupGo acc rows).map Prod.fst).Nodup := by
  intro rows
  induction rows with
  | nil => intro acc h; exact h
  | cons r rest ih =>
    intro acc h
    unfold groupGo
    by_cases hc : ((acc.map Prod.fst).contains (rowKey r)) = true
    · rw [if_pos hc]
      exact ih acc h
    · rw [if_neg hc]
      apply ih
      rw [List.map_append]
      rw [List.nodup_append]
      refine ⟨h, by simp, ?_⟩
      intro a ha hb
      simp only [List.map_cons, List.map_nil, List.mem_singleton] at hb
      subst hb
      rw [Bool.not_eq_true] at hc
      have : (acc.map Prod.fst).contains (rowKey r) = true :=
        List.elem_eq_true_of_mem ha
      rw [this] at hc
      cases hc

theorem groupGo_covers : ∀ (rows : List RawRow)
    (acc : List ((List Char × List Char) × RawRow)),
    ∀ r ∈ rows, rowKey r ∈ (groupGo acc rows).map Prod.fst := by
  intro rows
  induction rows with
  | nil => intro acc r hr; simp at hr
  | cons r0 rest ih =>
    intro acc r hr
    unfold groupGo
    by_cases hc : ((acc.map Prod.fst).contains (rowKey r0)) = true
    · rw [if_pos hc]
      rcases List.mem_cons.mp hr with rfl | hr'
      · exact groupGo_keys_mono rest acc (rowKey r) (by simpa using hc)
      · exact ih acc r hr'
    · rw [if_neg hc]
      rcases List.mem_cons.mp hr with rfl | hr'
      · apply groupGo_keys_mono
        rw [List.map_append]
        simp
      · exact ih _ r hr'

theorem groupGo_keys_origin : ∀ (rows : List RawRow)
    (acc : List ((List Char × List Char) × RawRow)) (k : List Char × List Char),
    k ∈ (groupGo acc rows).map Prod.fst →
    k ∈ acc.map Prod.fst ∨ k ∈ rows.map rowKey := by
  intro rows
  induction rows with
  | nil => intro acc k hk; exact Or.inl hk
  | cons r rest ih =>
    intro acc k hk
    unfold groupGo at hk
    by_cases hc : ((acc.map Prod.fst).contains (rowKey r)) = true
    · rw [if_pos hc] at hk
      rcases ih acc k hk with h | h
      · exact Or.inl h
      · exact Or.inr (by simp [h])
    · rw [if_neg hc] at hk
      rcases ih _ k hk with h | h
      · rw [List.map_append] at h
        rcases List.mem_append.mp h with h' | h'
        · exact Or.inl h'
        · simp only [List.map_cons, List.map_nil, List.mem_singleton] at h'
          exact Or.inr (by simp [h'])
      · exact Or.inr (by simp [h])

theorem groupGo_mem_of_key_in_acc : ∀ (rows : List RawRow)
    (acc : List ((List Char × List Char) × RawRow)) (k : List Char × List Char)
    (row : RawRow), (k, row) ∈ groupGo acc rows → k ∈ acc.map Prod.fst →
    (k, row) ∈ acc := by
  intro rows
  induction rows with
  | nil => intro acc k row h _; exact h
  | cons r rest ih =>
    intro acc k row h hk
    unfold groupGo at h
    by_cases hc : ((acc.map Prod.fst).contains (rowKey r)) = true
    · rw [if_pos hc] at h
      exact ih acc k row h hk
    · rw [if_neg hc] at h
      have := ih _ k row h (by rw [List.map_append]; simp [hk])
      rcases List.mem_append.mp this with h' | h'
      · exact h'
      · exfalso
        simp only [List.mem_singleton] at h'
        have hk2 : k = rowKey r := congrArg Prod.fst h'
        apply hc
        rw [← hk2]
        exact List.elem_eq_true_of_mem hk

theorem groupGo_first_wins : ∀ (rows : List RawRow)
    (acc : List ((List Char × List Char) × RawRow)) (k : List Char × List Char)
    (row : RawRow), k ∉ acc.map Prod.fst →
    ((k, row) ∈ groupGo acc rows ↔
      rows.find? (fun r => rowKey r == k) = some row) := by
  intro rows
  induction rows with
  | nil =>
    intro acc k row hk
    constructor
    · intro h
      exact absurd (List.mem_map.mpr ⟨(k, row), h, rfl⟩) hk
    · intro h
      cases h
  | cons r rest ih =>
    intro acc k row hk
    unfold groupGo
    by_cases hc : ((acc.map Prod.fst).contains (rowKey r)) = true
    · rw [if_pos hc]
      have hne : rowKey r ≠ k := by
        intro hcon
        exact hk (hcon ▸ (by simpa using hc))
      rw [List.find?_cons_of_neg _ (by simp [hne])]
      exact ih acc k row hk
    · rw [if_neg hc]
      by_cases hk2 : k = rowKey r
      · subst hk2
        rw [List.find?_cons_of_pos _ (by simp)]
        constructor
        · intro h
          have hmem := groupGo_mem_of_key_in_acc rest _ (rowKey r) row h
            (by rw [List.map_append]; simp)
          rcases List.mem_append.mp hmem with h' | h'
          · exact absurd (List.mem_map.mpr ⟨(rowKey r, row), h', rfl⟩) hk
          · simp only [List.mem_singleton, Prod.mk.injEq] at h'
            rw [h'.2]
        · intro h
          simp only [Option.some.injEq] at h
          subst h
          exact groupGo_acc_sub rest _ (rowKey r, r) (by simp)
      · rw [List.find?_cons_of_neg _ (by simp; intro hcon; exact hk2 hcon.symm)]
        apply ih
        rw [List.map_append]
        intro hcon
        rcases List.mem_append.mp hcon with h' | h'
        · exact hk h'
        · simp only [List.map_cons, List.map_nil, List.mem_singleton] at h'
          exact hk2 h'

end InsertSchedules

/-! ### Support lemmas: participant reconciliation -/

namespace InsertParticipants

/-- The snapshot augmented with one (schedule id, lower-cased name) key, as a
second run sees it after the first run's insert has been applied to the
database. -/
def augmentSnap (ex : Nat × List Char → Bool) (k : Nat × List Char) :
    Nat × List Char → Bool :=
  fun q => if q = k then true else ex q

theorem rowReport_resolved_status {pm : List Char → Option (Nat × Nat)}
    {sm : Nat × List Char → Option Nat} {row : PRow} {k : Nat × List Char}
    (ex : Nat × List Char → Bool)
    (h : resolveKey pm sm row = some k) :
    (rowReport pm sm ex row).status =
      (if ex k then "Skipped" else "To Be Inserted") := by
  unfold resolveKey at h
  cases hp : parse_indonesian_date row.tanggal_mulai with
  | none => rw [hp] at h; cases h
  | some d =>
    simp only [hp] at h
    cases hq : pm (lowerL (stripL row.program)) with
    | none => rw [hq] at h; cases h
    | some pc =>
      obtain ⟨pid, cid⟩ := pc
      simp only [hq] at h
      cases hs : sm (pid, d) with
      | none => rw [hs] at h; cases h
      | some sid =>
        simp only [hs] at h
        by_cases h0 : sid = 0
        · rw [if_pos h0] at h; cases h
        · rw [if_neg h0] at h
          have hk : k = (sid, lowerL (stripL row.nama)) := by
            cases h; rfl
          subst hk
          simp only [rowReport, hp, hq, hs]
          rw [if_neg h0]
          by_cases hx : ex (sid, lowerL (stripL row.nama)) = true
          · rw [if_pos hx, if_pos hx]
          · rw [if_neg hx, if_neg hx]

theorem rowReport_snap_congr (pm : List Char → Option (Nat × Nat))
    (sm : Nat × List Char → Option Nat) (ex ex' : Nat × List Char → Bool)
    (row : PRow)
    (hcong : ∀ k, resolveKey pm sm row = some k → ex k = ex' k) :
    rowReport pm sm ex row = rowReport pm sm ex' row := by
  unfold resolveKey at hcong
  cases hp : parse_indonesian_date row.tanggal_mulai with
  | none => simp only [rowReport, hp]
  | some d =>
    simp only [hp] at hcong
    cases hq : pm (lowerL (stripL row.program)) with
    | none => simp only [rowReport, hp, hq]
    | some pc =>
      obtain ⟨pid, cid⟩ := pc
      simp only [hq] at hcong
      cases hs : sm (pid, d) with
      | none => simp only [rowReport, hp, hq, hs]
      | some sid =>
        simp only [hs] at hcong
        simp only [rowReport, hp, hq, hs]
        by_cases h0 : sid = 0
        · rw [if_pos h0, if_pos h0]
        · rw [if_neg h0, if_neg h0]
          rw [if_neg h0] at hcong
          have hx := hcong (sid, lowerL (stripL row.nama)) rfl
          rw [hx]

/-- A participant row whose start date does not parse is kept: it is marked
Skipped with the invalid-date action (the first branch of `rowReport`). -/
theorem rowReport_invalid_date {pm : List Char → Option (Nat × Nat)}
    {sm : Nat × List Char → Option Nat} {ex : Nat × List Char → Bool}
    (row : PRow)
    (h : parse_indonesian_date row.tanggal_mulai = none) :
    (rowReport pm sm ex row).status = "Skipped" ∧
    (rowReport pm sm ex row).action = "Invalid schedule start date" := by
  simp only [rowReport, h]
  refine ⟨?_, ?_⟩ <;> trivial

end InsertParticipants

/-! ### Support lemmas: schedule error handling and CSV filtering -/

namespace InsertSchedules

theorem scheduleDecision_invalid (pm : List Char → Option (Nat × Nat))
    (ex : Nat × List Char → Bool) (g : (List Char × List Char) × RawRow)
    (h : parse_indonesian_date g.1.2 = none ∨
         parse_indonesian_date g.2.end_date = none) :
    (scheduleDecision pm ex g).status = "Invalid Date" ∧
    (scheduleDecision pm ex g).action = "Skip" := by
  simp only [scheduleDecision]
  rw [if_pos h]
  exact ⟨rfl, rfl⟩

theorem process_csv_data_fields (rows : List RawRow) :
    ∀ r ∈ process_csv_data rows,
      r.program ≠ [] ∧ r.start_date ≠ [] ∧ r.end_date ≠ [] := by
  intro r hr
  unfold process_csv_data at hr
  have hp := List.of_mem_filter hr
  simp only [Bool.and_eq_true, Bool.not_eq_true'] at hp
  refine ⟨?_, ?_, ?_⟩
  · intro hc; rw [hc] at hp; exact absurd hp.1.1 (by simp)
  · intro hc; rw [hc] at hp; exact absurd hp.1.2 (by simp)
  · intro hc; rw [hc] at hp; exact absurd hp.2 (by simp)

end InsertSchedules

/-! ### Support definitions: mutation-unit lines -/

/-- Does a script line start a mutation unit (an SQL INSERT statement)? -/
def isInsertLine (l : List Char) : Bool := "INSERT".data.isPrefixOf l

/-! ### The date normalizer as the spec's words describe it

The spec says the normalizer fails exactly when the token count is not 3,
the month name is unrecognized in both locales, or the (day, month, year)
triple is not a real calendar date — with no constraint on how the day and
year are written.  This definition transcribes those words (it is NOT a
translation of the source; it exists to be compared against the source
parsers). -/

def dateNormSpec (s : List Char) : Option (List Char) :=
  match pySplit (lowerL (stripL s)) with
  | [d, m, y] =>
    if d ≠ [] ∧ d.all isDigitC ∧ y ≠ [] ∧ y.all isDigitC then
      match monthResolve m with
      | some mn =>
        if 1 ≤ digitsToNat y ∧ 1 ≤ digitsToNat d ∧
            digitsToNat d ≤ daysInMonth (digitsToNat y) mn then
          some (renderDate (digitsToNat y) mn (digitsToNat d))
        else none
      | none => none
    else none
  | _ => none

/-! ### Concrete fixtures used by the claim witnesses and counterexamples -/

/-- Two raw schedule rows sharing the same raw (program, start-date) key but
with different end dates. -/
def c4rowA : InsertSchedules.RawRow :=
  ⟨"P".data, "D".data, "E1".data⟩

def c4rowB : InsertSchedules.RawRow :=
  ⟨"P".data, "D".data, "E2".data⟩

/-- A participant row that resolves fully: program `Prog`, schedule starting
31 December 2024, participant `Alice`. -/
def c5row : InsertParticipants.PRow :=
  ⟨"Alice".data, "Prog".data, "31 Desember 2024".data, "A".data, "B".data,
   "31 Desember 2024".data⟩

def c5pm : List Char → Option (Nat × Nat) :=
  fun n => if n = "prog".data then some (1, 2) else none

def c5sm : Nat × List Char → Option Nat :=
  fun q => if q = (1, "2024-12-31".data) then some 5 else none

def c5ex : Nat × List Char → Bool := fun _ => false

def c5key : Nat × List Char := (5, "alice".data)

/-- A grouped schedule entry whose start-date string is unparseable. -/
def c9group : (List Char × List Char) × InsertSchedules.RawRow :=
  (("Prog".data, "notadate".data),
   ⟨"Prog".data, "notadate".data, "2 Mei 2024".data⟩)

/-- A raw schedule row whose required program field is missing (empty). -/
def c9badRow : InsertSchedules.RawRow :=
  ⟨[], "1 Mei 2024".data, "2 Mei 2024".data⟩

/-- A participant row whose schedule start date is unparseable. -/
def c9prow : InsertParticipants.PRow :=
  ⟨"Alice".data, "Prog".data, "notadate".data, "A".data, "B".data,
   "2 Mei 2024".data⟩

/-! ### The claims -/

/-- Claim C1 (corrected).  The participants date normalizer is exactly the
composition strip→lower→split-into-3→month-translation→`buildDateR`: besides
the spec's three failure conditions it also requires the day token to be 1–2
digits with value 1–31 (`dayTokOk`) and the year token to be exactly 4
digits (`yearTokOk`); the spec's three scenario values hold. -/
theorem claim_C1 (s : List Char) :
    InsertParticipants.parse_indonesian_date s =
      (match pySplit (lowerL (stripL s)) with
       | [d, m, y] =>
         (match monthResolve m with
          | some mn => buildDateR d y mn
          | none => none)
       | _ => none) ∧
    InsertParticipants.parse_indonesian_date "31 Desember 2024".data =
      some "2024-12-31".data ∧
    InsertParticipants.parse_indonesian_date "18 January 2025".data =
      some "2025-01-18".data ∧
    InsertParticipants.parse_indonesian_date "DD Unknownmonth YYYY".data = none :=
  ⟨parse1_full s, by decide, by decide, by decide⟩

/-- Claim C1, counterexample to the claimed failure characterization: on
`"031 Desember 2024"` the token count is 3, the month is recognized and
(31, December, 2024) is a real calendar date — the spec-transcribed
normalizer succeeds — yet the code returns None, because `%d` accepts at
most two digits. -/
theorem claim_C1_cex :
    dateNormSpec "031 Desember 2024".data = some "2024-12-31".data ∧
    InsertParticipants.parse_indonesian_date "031 Desember 2024".data = none := by
  decide

/-- Claim C2 (corrected).  The two `parse_indonesian_date` implementations
agree on every string with no leading and no trailing whitespace (they do
NOT agree on all strings — see the counterexample). -/
theorem claim_C2 (s : List Char) (hh : headIsWS s = false)
    (hl : lastIsWS s = false) :
    InsertSchedules.parse_indonesian_date s =
      InsertParticipants.parse_indonesian_date s :=
  parse_agree s hh hl

/-- Claim C2, counterexample to full equivalence: on `" 31 Desember 2024"`
the participants parser strips the leading space and succeeds while the
schedules parser (which never strips) fails. -/
theorem claim_C2_cex :
    InsertParticipants.parse_indonesian_date " 31 Desember 2024".data =
      some "2024-12-31".data ∧
    InsertSchedules.parse_indonesian_date " 31 Desember 2024".data = none := by
  decide

/-- Claim C2, witness: the two parsers agree on the whitespace-free string
`"31 Desember 2024"`. -/
theorem claim_C2_witness :
    InsertSchedules.parse_indonesian_date "31 Desember 2024".data =
      InsertParticipants.parse_indonesian_date "31 Desember 2024".data :=
  claim_C2 "31 Desember 2024".data (by decide) (by decide)

/-- Claim C3 (confirmed).  `process_programs` yields exactly one decision per
candidate, in input order; a candidate whose trimmed lower-cased name is in
the snapshot decides Exists/Skip, one absent decides New/Insert with the
classifier's category.  (Determinism across runs is immediate: the embedding
is a pure function of its inputs.) -/
theorem claim_C3 (slugf : List Char → List Char)
    (existing : List Char → Bool)
    (rules : List (List Char × List (List Char)))
    (cat_ids : List (List Char × Nat)) (names : List (List Char)) :
    (InsertPrograms.process_programs slugf names existing rules cat_ids).length =
      names.length ∧
    (∀ i : Nat,
      (InsertPrograms.process_programs slugf names existing rules cat_ids)[i]? =
        (names[i]?).map (InsertPrograms.programDecision slugf existing rules)) ∧
    (∀ name, existing (lowerL (stripL name)) = true →
      (InsertPrograms.programDecision slugf existing rules name).status = "Exists" ∧
      (InsertPrograms.programDecision slugf existing rules name).action = "Skip") ∧
    (∀ name, existing (lowerL (stripL name)) = false →
      (InsertPrograms.programDecision slugf existing rules name).status = "New" ∧
      (InsertPrograms.programDecision slugf existing rules name).action = "Insert" ∧
      (InsertPrograms.programDecision slugf existing rules name).predicted_category =
        (InsertPrograms.predict_category (lowerL (stripL name)) rules).1) := by
  refine ⟨by simp [InsertPrograms.process_programs], ?_, ?_, ?_⟩
  · intro i
    simp [InsertPrograms.process_programs]
  · intro name h
    exact InsertPrograms.programDecision_of_member h
  · intro name h
    obtain ⟨h1, h2, h3, _⟩ :=
      @InsertPrograms.programDecision_of_new slugf existing rules name h
    exact ⟨h1, h2, h3⟩

/-- Claim C3, witness at a concrete snapshot and candidate list. -/
theorem claim_C3_witness :
    (InsertPrograms.process_programs (fun l => l)
      ["Alpha ".data, "beta".data] (fun n => n == "alpha".data) [] []).length = 2 ∧
    (InsertPrograms.programDecision (fun l => l) (fun n => n == "alpha".data) []
      "Alpha ".data).status = "Exists" ∧
    (InsertPrograms.programDecision (fun l => l) (fun n => n == "alpha".data) []
      "beta".data).status = "New" := by
  have h := claim_C3 (fun l => l) (fun n => n == "alpha".data) [] []
    ["Alpha ".data, "beta".data]
  exact ⟨h.1, (h.2.2.1 "Alpha ".data (by decide)).1,
    (h.2.2.2 "beta".data (by decide)).1⟩

/-- Claim C4 (confirmed).  Grouping keys raw rows by the raw (program,
start-date) pair: keys in the grouped list are pairwise distinct, every
input row's key is present, every key present comes from an input row, the
representative of a key is exactly the FIRST input row with that key, and
`process_schedules` emits exactly one decision per group. -/
theorem claim_C4 (rows : List InsertSchedules.RawRow)
    (pm : List Char → Option (Nat × Nat)) (ex : Nat × List Char → Bool) :
    ((InsertSchedules.group_csv_data rows).map Prod.fst).Nodup ∧
    (∀ r ∈ rows, InsertSchedules.rowKey r ∈
      (InsertSchedules.group_csv_data rows).map Prod.fst) ∧
    (∀ k ∈ (InsertSchedules.group_csv_data rows).map Prod.fst,
      k ∈ rows.map InsertSchedules.rowKey) ∧
    (∀ k row, ((k, row) ∈ InsertSchedules.group_csv_data rows ↔
      rows.find? (fun r => InsertSchedules.rowKey r == k) = some row)) ∧
    (InsertSchedules.process_schedules (InsertSchedules.group_csv_data rows)
        pm ex).length = (InsertSchedules.group_csv_data rows).length := by
  refine ⟨InsertSchedules.groupGo_nodup rows [] (by simp),
    fun r hr => InsertSchedules.groupGo_covers rows [] r hr,
    fun k hk => ?_,
    fun k row => InsertSchedules.groupGo_first_wins rows [] k row (by simp),
    by simp [InsertSchedules.process_schedules]⟩
  rcases InsertSchedules.groupGo_keys_origin rows [] k hk with h | h
  · simp at h
  · exact h

/-- Claim C4, witness: two rows with the same raw key collapse to one group
represented by the first row. -/
theorem claim_C4_witness :
    ((InsertSchedules.group_csv_data [c4rowA, c4rowB]).map Prod.fst).Nodup ∧
    (InsertSchedules.rowKey c4rowB ∈
      (InsertSchedules.group_csv_data [c4rowA, c4rowB]).map Prod.fst) ∧
    ((("P".data, "D".data), c4rowA) ∈
        InsertSchedules.group_csv_data [c4rowA, c4rowB] ↔
      [c4rowA, c4rowB].find?
        (fun r => InsertSchedules.rowKey r == ("P".data, "D".data)) = some c4rowA) := by
  have h := claim_C4 [c4rowA, c4rowB] (fun _ => none) (fun _ => false)
  exact ⟨h.1, h.2.1 c4rowB (by simp), h.2.2.2.1 ("P".data, "D".data) c4rowA⟩

/-- Claim C5 (corrected).  For a row that resolves to key `k` and is To Be
Inserted under snapshot `ex`, re-running under the augmented snapshot flips
that row to Skipped; a row is unchanged when it does not resolve to `k`
(resolution fails, or resolves to a different key).  A row that DOES resolve
to the same `k` — e.g. a duplicate of the first row — also flips, so "every
other row is unchanged" does not hold as claimed (see the counterexample). -/
theorem claim_C5 (pm : List Char → Option (Nat × Nat))
    (sm : Nat × List Char → Option Nat) (ex : Nat × List Char → Bool)
    (row : InsertParticipants.PRow) (k : Nat × List Char)
    (h : InsertParticipants.resolveKey pm sm row = some k)
    (hx : ex k = false) :
    (InsertParticipants.rowReport pm sm ex row).status = "To Be Inserted" ∧
    (InsertParticipants.rowReport pm sm (InsertParticipants.augmentSnap ex k)
      row).status = "Skipped" ∧
    (∀ row', InsertParticipants.resolveKey pm sm row' = none →
      InsertParticipants.rowReport pm sm (InsertParticipants.augmentSnap ex k) row' =
        InsertParticipants.rowReport pm sm ex row') ∧
    (∀ row' k', InsertParticipants.resolveKey pm sm row' = some k' → k' ≠ k →
      InsertParticipants.rowReport pm sm (InsertParticipants.augmentSnap ex k) row' =
        InsertParticipants.rowReport pm sm ex row') := by
  refine ⟨?_, ?_, ?_, ?_⟩
  · rw [InsertParticipants.rowReport_resolved_status ex h, hx]
    rfl
  · rw [InsertParticipants.rowReport_resolved_status
      (InsertParticipants.augmentSnap ex k) h]
    have hk : InsertParticipants.augmentSnap ex k k = true := by
      simp [InsertParticipants.augmentSnap]
    rw [hk]
    rfl
  · intro row' h'
    refine InsertParticipants.rowReport_snap_congr pm sm _ ex row'
      (fun k2 hk2 => ?_)
    rw [h'] at hk2
    cases hk2
  · intro row' k' h' hne
    refine InsertParticipants.rowReport_snap_congr pm sm _ ex row'
      (fun k2 hk2 => ?_)
    rw [h'] at hk2
    have hk' : k' = k2 := by injection hk2
    subst hk'
    simp [InsertParticipants.augmentSnap, hne]

/-- Claim C5, counterexample to "every other row is unchanged": with two
identical rows, both report To Be Inserted on the first run; after the first
row's key is added to the snapshot, the OTHER row flips to Skipped as well. -/
theorem claim_C5_cex :
    ((InsertParticipants.generate_sql [c5row, c5row] c5pm c5sm c5ex).2.get? 0).map
        InsertParticipants.ParticipantReportItem.status = some "To Be Inserted" ∧
    ((InsertParticipants.generate_sql [c5row, c5row] c5pm c5sm c5ex).2.get? 1).map
        InsertParticipants.ParticipantReportItem.status = some "To Be Inserted" ∧
    InsertParticipants.resolveKey c5pm c5sm c5row = some c5key ∧
    ((InsertParticipants.generate_sql [c5row, c5row] c5pm c5sm
        (InsertParticipants.augmentSnap c5ex c5key)).2.get? 1).map
        InsertParticipants.ParticipantReportItem.status = some "Skipped" := by
  decide

/-- Claim C5, witness: the resolved row itself flips from To Be Inserted to
Skipped under the augmented snapshot. -/
theorem claim_C5_witness :
    (InsertParticipants.rowReport c5pm c5sm c5ex c5row).status =
      "To Be Inserted" ∧
    (InsertParticipants.rowReport c5pm c5sm
      (InsertParticipants.augmentSnap c5ex c5key) c5row).status = "Skipped" := by
  have h := claim_C5 c5pm c5sm c5ex c5row c5key (by decide) rfl
  exact ⟨h.1, h.2.1⟩

/-- Claim C6 (corrected).  The certificate reference concatenates No and ket
when both are non-empty and passes an empty ket through; but when only No is
non-empty the code returns ket — i.e. the empty string, NOT the non-empty
column as claimed (see the counterexample). -/
theorem claim_C6 (no_value ket_value : List Char) :
    (no_value ≠ [] → ket_value ≠ [] →
      InsertParticipants.certificateRef no_value ket_value =
        no_value ++ ket_value) ∧
    (no_value = [] →
      InsertParticipants.certificateRef no_value ket_value = ket_value) ∧
    (ket_value = [] →
      InsertParticipants.certificateRef no_value ket_value = []) := by
  refine ⟨fun h1 h2 => ?_, fun h1 => ?_, fun h2 => ?_⟩
  · unfold InsertParticipants.certificateRef
    rw [if_pos ⟨by simpa using h1, by simpa using h2⟩]
  · unfold InsertParticipants.certificateRef
    rw [if_neg (by simp [h1])]
  · subst h2
    unfold InsertParticipants.certificateRef
    rw [if_neg (by simp)]

/-- Claim C6, counterexample to "whichever one is non-empty": with No
non-empty and ket empty the reference is empty, not No. -/
theorem claim_C6_cex :
    InsertParticipants.certificateRef "A".data [] = [] ∧
    "A".data ≠ ([] : List Char) := by
  decide

/-- Claim C6, witness at concrete columns. -/
theorem claim_C6_witness :
    InsertParticipants.certificateRef "A".data "B".data = "A".data ++ "B".data ∧
    InsertParticipants.certificateRef [] "B".data = "B".data ∧
    InsertParticipants.certificateRef "A".data [] = [] :=
  ⟨(claim_C6 "A".data "B".data).1 (by decide) (by decide),
   (claim_C6 [] "B".data).2.1 rfl,
   (claim_C6 "A".data []).2.2 rfl⟩

/-- Claim C7 (corrected).  All three builders end with COMMIT and emit zero
INSERT lines for an empty decision list, and the participants script begins
with START TRANSACTION — but the programs and schedules scripts begin with a
comment header (`-- Generated by ...`); their START TRANSACTION is the 4th
line, so "begins with the transaction-open marker as its first content" is
false for them (see the counterexample). -/
theorem claim_C7 (ps : List InsertPrograms.ProgramReportItem)
    (ss : List InsertSchedules.ScheduleReportItem)
    (rows : List InsertParticipants.PRow)
    (pm : List Char → Option (Nat × Nat)) (sm : Nat × List Char → Option Nat)
    (ex : Nat × List Char → Bool) (hint ts : List Char) :
    (InsertPrograms.generate_sql_script ps hint ts).head? =
      some "-- Generated by certificates-data-entry-tools".data ∧
    (InsertPrograms.generate_sql_script ps hint ts).get? 3 =
      some "START TRANSACTION;".data ∧
    (InsertPrograms.generate_sql_script ps hint ts).getLast? =
      some "COMMIT;".data ∧
    (InsertSchedules.generate_sql_script ss hint ts).get? 3 =
      some "START TRANSACTION;".data ∧
    (InsertSchedules.generate_sql_script ss hint ts).getLast? =
      some "COMMIT;".data ∧
    (InsertParticipants.generate_sql rows pm sm ex).1.head? =
      some "START TRANSACTION;".data ∧
    (InsertParticipants.generate_sql rows pm sm ex).1.getLast? =
      some "COMMIT;".data ∧
    (InsertPrograms.generate_sql_script [] hint ts).countP isInsertLine = 0 ∧
    (InsertSchedules.generate_sql_script [] hint ts).countP isInsertLine = 0 ∧
    (InsertParticipants.generate_sql [] pm sm ex).1.countP isInsertLine = 0 := by
  refine ⟨rfl, rfl, ?_, rfl, ?_, rfl, ?_, rfl, rfl, rfl⟩
  · exact List.getLast?_concat _
  · exact List.getLast?_concat _
  · show ("START TRANSACTION;".data ::
      (rows.foldr (fun r acc =>
        InsertParticipants.rowSql pm sm ex r ++ acc) [] ++
       ["COMMIT;".data])).getLast? = some "COMMIT;".data
    rw [← List.cons_append]
    exact List.getLast?_concat _

/-- Claim C7, counterexample to "begins with the transaction-open marker":
the programs script's first line is the generator comment. -/
theorem claim_C7_cex :
    (InsertPrograms.generate_sql_script [] "out.sql".data "ts".data).head? =
      some "-- Generated by certificates-data-entry-tools".data ∧
    "-- Generated by certificates-data-entry-tools".data ≠
      "START TRANSACTION;".data := by
  decide

/-- Claim C8 (corrected).  The classifier returns the first category (in
rule order) with a whole-word keyword match and that category's id from the
global table, and ("Uncategorized", none) when nothing matches — but the
match is case-SENSITIVE (`re.search` without `re.IGNORECASE`), not
case-insensitive as claimed (see the counterexample). -/
theorem claim_C8 (name : List Char)
    (pre : List (List Char × List (List Char)))
    (cat : List Char) (kws : List (List Char))
    (post : List (List Char × List (List Char)))
    (rules0 : List (List Char × List (List Char)))
    (hpre : ∀ r ∈ pre, ∀ kw ∈ r.2, InsertPrograms.reSearchWord kw name = false)
    (hm : ∃ kw ∈ kws, InsertPrograms.reSearchWord kw name = true)
    (hnone : ∀ r ∈ rules0, ∀ kw ∈ r.2,
      InsertPrograms.reSearchWord kw name = false) :
    InsertPrograms.predict_category name (pre ++ (cat, kws) :: post) =
      (cat, InsertPrograms.CATEGORY_IDS.lookup cat) ∧
    InsertPrograms.predict_category name rules0 = ("Uncategorized".data, none) :=
  ⟨InsertPrograms.predict_category_first hpre hm,
   InsertPrograms.predict_category_no_match hnone⟩

/-- Claim C8, counterexample to case-insensitivity: the upper-case keyword
`"IT"` does not match the name `"it course"`, although the lower-cased
keyword occurs as a whole word. -/
theorem claim_C8_cex :
    InsertPrograms.predict_category "it course".data
      [("IT".data, ["IT".data])] = ("Uncategorized".data, none) ∧
    InsertPrograms.reSearchWord "it".data "it course".data = true := by
  decide

/-- Claim C8, witness: `"excel"` under category IT wins over a later
category listing the same keyword, and an unmatched rule list yields the
Uncategorized sentinel. -/
theorem claim_C8_witness :
    InsertPrograms.predict_category "excel course".data
      ([("Engineering".data, ["autocad".data])] ++
        ("IT".data, ["excel".data]) :: [("Accounting".data, ["excel".data])]) =
      ("IT".data, some 5) ∧
    InsertPrograms.predict_category "excel course".data
      [("IT".data, ["python".data])] = ("Uncategorized".data, none) := by
  have h := claim_C8 "excel course".data [("Engineering".data, ["autocad".data])]
    "IT".data ["excel".data] [("Accounting".data, ["excel".data])]
    [("IT".data, ["python".data])] (by decide) (by decide) (by decide)
  refine ⟨?_, h.2⟩
  rw [h.1]
  decide

/-- Claim C9 (corrected).  Unparseable dates are handled as claimed in both
pipelines: a grouped schedule entry whose start or end date does not parse
is marked Invalid Date / Skip and `process_schedules` emits one decision per
group, and a participant row whose start date does not parse is marked
Skipped with the invalid-date action while `generate_sql` keeps one report
item per row plus the summary (the run never aborts).  But a schedules row
with a missing required field is dropped by `process_csv_data` before
grouping — every surviving row has all three fields non-empty — so such a
row never appears in the decision list at all, contradicting "never
silently dropped" (see the counterexample). -/
theorem claim_C9 (rows : List InsertSchedules.RawRow)
    (grouped : List ((List Char × List Char) × InsertSchedules.RawRow))
    (pm : List Char → Option (Nat × Nat)) (ex : Nat × List Char → Bool)
    (g : (List Char × List Char) × InsertSchedules.RawRow)
    (hg : InsertSchedules.parse_indonesian_date g.1.2 = none ∨
          InsertSchedules.parse_indonesian_date g.2.end_date = none)
    (prows : List InsertParticipants.PRow)
    (ppm : List Char → Option (Nat × Nat))
    (psm : Nat × List Char → Option Nat)
    (pex : Nat × List Char → Bool)
    (prow : InsertParticipants.PRow)
    (hp : InsertParticipants.parse_indonesian_date prow.tanggal_mulai = none) :
    (InsertSchedules.scheduleDecision pm ex g).status = "Invalid Date" ∧
    (InsertSchedules.scheduleDecision pm ex g).action = "Skip" ∧
    (InsertSchedules.process_schedules grouped pm ex).length = grouped.length ∧
    (∀ r ∈ InsertSchedules.process_csv_data rows,
      r.program ≠ [] ∧ r.start_date ≠ [] ∧ r.end_date ≠ []) ∧
    (InsertParticipants.rowReport ppm psm pex prow).status = "Skipped" ∧
    (InsertParticipants.rowReport ppm psm pex prow).action =
      "Invalid schedule start date" ∧
    (InsertParticipants.generate_sql prows ppm psm pex).2.length =
      prows.length + 1 ∧
    (∀ i, i < prows.length →
      (InsertParticipants.generate_sql prows ppm psm pex).2[i]? =
        (prows[i]?).map (InsertParticipants.rowReport ppm psm pex)) := by
  refine ⟨(InsertSchedules.scheduleDecision_invalid pm ex g hg).1,
    (InsertSchedules.scheduleDecision_invalid pm ex g hg).2,
    by simp [InsertSchedules.process_schedules],
    InsertSchedules.process_csv_data_fields rows,
    (InsertParticipants.rowReport_invalid_date prow hp).1,
    (InsertParticipants.rowReport_invalid_date prow hp).2,
    by simp [InsertParticipants.generate_sql],
    ?_⟩
  intro i hi
  simp only [InsertParticipants.generate_sql]
  rw [List.getElem?_append, if_pos (by simpa using hi)]
  simp

/-- Claim C9, counterexample to "never silently dropped": a row whose
required program field is empty yields an EMPTY decision list — no Invalid
or Skipped marker, the row simply vanishes. -/
theorem claim_C9_cex :
    InsertSchedules.process_schedules
      (InsertSchedules.group_csv_data
        (InsertSchedules.process_csv_data [c9badRow]))
      (fun _ => none) (fun _ => false) = [] := by
  decide

/-- Claim C9, witness: an unparseable start date is marked Invalid Date and
skipped in the schedules pipeline, and marked Skipped with the invalid-date
action — while the row is kept in the report — in the participants
pipeline. -/
theorem claim_C9_witness :
    (InsertSchedules.scheduleDecision (fun _ => none) (fun _ => false)
      c9group).status = "Invalid Date" ∧
    (InsertSchedules.scheduleDecision (fun _ => none) (fun _ => false)
      c9group).action = "Skip" ∧
    (InsertParticipants.rowReport (fun _ => none) (fun _ => none)
      (fun _ => false) c9prow).status = "Skipped" ∧
    (InsertParticipants.rowReport (fun _ => none) (fun _ => none)
      (fun _ => false) c9prow).action = "Invalid schedule start date" ∧
    (InsertParticipants.generate_sql [c9prow] (fun _ => none) (fun _ => none)
      (fun _ => false)).2.length = 2 := by
  have h := claim_C9 [] [] (fun _ => none) (fun _ => false) c9group
    (Or.inl (by decide)) [c9prow] (fun _ => none) (fun _ => none)
    (fun _ => false) c9prow (by decide)
  exact ⟨h.1, h.2.1, h.2.2.2.2.1, h.2.2.2.2.2.1, h.2.2.2.2.2.2.1⟩

/-- Claim C10 (corrected).  Valid "D Month YYYY" strings normalize to
YYYY-MM-DD (witnessed concretely; claim C1's theorem characterizes the
valid set), but the normalizer is NOT idempotent: every successful output
fails to reparse, because "YYYY-MM-DD" has a single whitespace-delimited
token and `"%d %B %Y"` needs three. -/
theorem claim_C10 {s r : List Char}
    (h : InsertParticipants.parse_indonesian_date s = some r) :
    InsertParticipants.parse_indonesian_date r = none :=
  parse1_reparse_none h

/-- Claim C10, counterexample to idempotence: the successful output
`"2024-12-31"` does not re-normalize to itself — it fails. -/
theorem claim_C10_cex :
    InsertParticipants.parse_indonesian_date "31 Desember 2024".data =
      some "2024-12-31".data ∧
    InsertParticipants.parse_indonesian_date "2024-12-31".data = none := by
  decide

/-- Claim C10, witness: applied to the parse of `"18 Mei 2024"`. -/
theorem claim_C10_witness :
    InsertParticipants.parse_indonesian_date "18 Mei 2024".data =
      some "2024-05-18".data ∧
    InsertParticipants.parse_indonesian_date "2024-05-18".data = none :=
  ⟨by decide, @claim_C10 "18 Mei 2024".data "2024-05-18".data (by decide)⟩

end CertTools
